import Mathlib

/-
  Verification of the stash core of rgb-node: the `consign` (proof
  extraction with selective concealment) and `merge` (proof ingestion with
  selective revelation) algorithms of `src/stashd/stash.rs`, shallowly
  embedded over a model of the contract-graph data types and the Store and
  Index collaborator contracts described in the design document.
-/

namespace RgbNode

/-- Modelled from the spec: a revealed single-use-seal definition
(`OutpointReveal` of the seals library, not part of this repository):
the full seal pre-image, here an outpoint (txid, vout) plus a blinding
factor. -/
structure OutpointReveal where
  txid : Nat
  vout : Nat
  blinding : Nat
deriving DecidableEq, Repr

/-- Modelled from the spec: the one-way concealment commitment of a seal
definition (an `OutpointHash`), represented by an injective encoding of the
pre-image. -/
def OutpointReveal.conceal (r : OutpointReveal) : Nat :=
  Nat.pair r.txid (Nat.pair r.vout r.blinding)

/-- Modelled from the spec: one seal-bound assignment item, in one of the
two disclosure states: concealed (only the commitment to the seal and a
state commitment are present) or revealed (full seal definition and state
value). -/
inductive AssignItem where
  | concealed (commit : Nat) (state : Nat)
  | revealed (sealDef : OutpointReveal) (state : Nat)
deriving DecidableEq, Repr

/-- Modelled from the spec: concealment of an item; revealed to concealed is
always computable, concealed items stay as they are. -/
def AssignItem.conceal : AssignItem → AssignItem
  | .concealed s st => .concealed s st
  | .revealed r st => .concealed r.conceal st

/-- Whether the item is in the concealed disclosure state (no revealed
payload present). -/
def AssignItem.isConcealed : AssignItem → Bool
  | .concealed _ _ => true
  | .revealed _ _ => false

/-- Modelled from the spec: conceal the item unless the concealed form of
its seal is listed in `S` (the concealed expose set); already concealed
items stay concealed. -/
def AssignItem.concealExcept (S : List Nat) : AssignItem → AssignItem
  | .concealed s st => .concealed s st
  | .revealed r st =>
      if r.conceal ∈ S then .revealed r st else .concealed r.conceal st

/-- Modelled from the spec: replace a concealed item by its revealed form
whenever its concealed seal matches an entry of `ks` (the locally known
seal pre-images); otherwise leave the item unchanged. -/
def AssignItem.revealSeals (ks : List OutpointReveal) : AssignItem → AssignItem
  | .concealed s st =>
      match ks.find? (fun r => r.conceal == s) with
      | some r => .revealed r st
      | none => .concealed s st
  | .revealed r st => .revealed r st

/-- Modelled from the spec: an owned-rights assignment group, polymorphic
over the three state variants (Declarative, DiscreteFiniteField,
CustomData). -/
inductive Assignments where
  | declarative (items : List AssignItem)
  | discreteFiniteField (items : List AssignItem)
  | customData (items : List AssignItem)
deriving DecidableEq, Repr

/-- The list of items carried by an assignment group. -/
def Assignments.items : Assignments → List AssignItem
  | .declarative xs => xs
  | .discreteFiniteField xs => xs
  | .customData xs => xs

/-- Apply an item transformation to every item of the group, preserving the
variant. -/
def Assignments.mapItems (f : AssignItem → AssignItem) :
    Assignments → Assignments
  | .declarative xs => .declarative (xs.map f)
  | .discreteFiniteField xs => .discreteFiniteField (xs.map f)
  | .customData xs => .customData (xs.map f)

/-- Modelled from the spec: conceal every item of the group
(`conceal_all` of the `AutoConceal` trait). -/
def Assignments.concealAll (a : Assignments) : Assignments :=
  a.mapItems AssignItem.conceal

/-- Modelled from the spec: conceal every item of the group except those
whose concealed seal is in `S` (`conceal_except`). -/
def Assignments.concealExceptSet (S : List Nat) (a : Assignments) :
    Assignments :=
  a.mapItems (AssignItem.concealExcept S)

/-- The `reveal_known_seals` closure of `merge` (src/stashd/stash.rs):
Declarative groups are left untouched; in DiscreteFiniteField and
CustomData groups every item is mapped through `reveal_seals` with the
known seals. -/
def Assignments.revealKnownSeals (ks : List OutpointReveal) :
    Assignments → Assignments
  | .declarative xs => .declarative xs
  | .discreteFiniteField xs =>
      .discreteFiniteField (xs.map (AssignItem.revealSeals ks))
  | .customData xs => .customData (xs.map (AssignItem.revealSeals ks))

/-- Modelled from the spec: the common shape of a non-root graph node
(Transition or Extension): a content-addressed identifier, the parent
owned-rights and parent public-rights reference maps (iterated as
(parent-node-identifier, _) pairs by `consign`), and the owned-rights
assignment groups keyed by owned-rights type. -/
structure GNode where
  nodeId : Nat
  parentOwnedRights : List (Nat × Nat)
  parentPublicRights : List (Nat × Nat)
  ownedRights : List (Nat × Assignments)
deriving DecidableEq, Repr

/-- The parent-node identifiers referenced by a node, in the order
`consign` enqueues them: owned-rights parents first, then public-rights
parents. -/
def GNode.parentIds (n : GNode) : List Nat :=
  n.parentOwnedRights.map Prod.fst ++ n.parentPublicRights.map Prod.fst

/-- Conceal every assignment item of the node (`conceal_all`). -/
def GNode.concealAll (n : GNode) : GNode :=
  { n with ownedRights :=
      n.ownedRights.map (fun p => (p.1, p.2.concealAll)) }

/-- Conceal every assignment item of the node except those whose concealed
seal is in `S` (`conceal_except`). -/
def GNode.concealExceptSet (S : List Nat) (n : GNode) : GNode :=
  { n with ownedRights :=
      n.ownedRights.map (fun p => (p.1, p.2.concealExceptSet S)) }

/-- Apply `reveal_known_seals` to every owned-rights group of the node, as
`merge` does through `owned_rights_mut`. -/
def GNode.revealKnownSeals (ks : List OutpointReveal) (n : GNode) : GNode :=
  { n with ownedRights :=
      n.ownedRights.map (fun p => (p.1, p.2.revealKnownSeals ks)) }

/-- Modelled from the spec: the unique root node of a contract; its own
identifier is the contract identifier. -/
structure Genesis where
  contractId : Nat
deriving DecidableEq, Repr

/-- Modelled from the spec: an anchor, the commitment structure binding
transitions to the base ledger, content-addressed by its identifier. -/
structure Anchor where
  anchorId : Nat
deriving DecidableEq, Repr

/-- Modelled from the spec: a seal endpoint, referencing one seal-bound
assignment: either an already concealed outpoint hash or a witness-vout
form carrying a blinding factor. -/
inductive SealEndpoint where
  | txOutpoint (h : Nat)
  | witnessVout (vout : Nat) (blinding : Nat)
deriving DecidableEq, Repr

/-- Modelled from the spec: the concealed form of a seal endpoint
(`SealEndpoint::conceal`), an outpoint hash. -/
def SealEndpoint.conceal : SealEndpoint → Nat
  | .txOutpoint h => h
  | .witnessVout v b => Nat.pair v b

/-- The transferable proof artifact assembled by `consign`: genesis, the
exposed (node-identifier, seal-endpoint) pairs, the (anchor, transition)
list and the extension list. -/
structure Consignment where
  genesis : Genesis
  endpoints : List (Nat × SealEndpoint)
  stateTransitions : List (Anchor × GNode)
  stateExtensions : List GNode
deriving DecidableEq, Repr

/-- The error type of the stash (src/stashd/stash.rs): storage failures,
index failures, and the two `consign` precondition violations. -/
inductive Error where
  | StorageError
  | IndexError
  | AnchorParameterIsRequired
  | GenesisNode
deriving DecidableEq, Repr

/-- Decidable equality for `Except`, used to evaluate concrete runs of the
algorithms. -/
instance exceptDecEq {ε α : Type} [DecidableEq ε] [DecidableEq α] :
    DecidableEq (Except ε α)
  | .ok x, .ok y => decidable_of_iff (x = y) (by simp)
  | .ok _, .error _ => isFalse (by simp)
  | .error _, .ok _ => isFalse (by simp)
  | .error x, .error y => decidable_of_iff (x = y) (by simp)

/-- Look up the first entry with the given key in an association list. -/
def lookupKey {α : Type} (m : List (Nat × α)) (k : Nat) : Option α :=
  (m.find? (fun p => p.1 == k)).map Prod.snd

/-- Insert keyed by identifier: replace the value of the first entry
holding the key, or append a fresh entry. -/
def insertKeyed {α : Type} : List (Nat × α) → Nat → α → List (Nat × α)
  | [], k, v => [(k, v)]
  | p :: rest, k, v =>
      if p.1 = k then (k, v) :: rest else p :: insertKeyed rest k v

/-- Modelled from the spec: the Store collaborator (the storage module is
not part of the analysed sources). Keyed get/add maps per entity kind;
`failKeys` models the identifiers on which an `add` fails with a
StorageError (I/O or constraint violation). -/
structure Store where
  genesisMap : List (Nat × Genesis)
  transitions : List (Nat × GNode)
  extensions : List (Nat × GNode)
  anchors : List (Nat × Anchor)
  failKeys : List Nat
deriving DecidableEq, Repr

/-- Modelled from the spec: `Store::genesis`, failing with a StorageError
when the contract's genesis is absent. -/
def Store.genesis (s : Store) (cid : Nat) : Except Error Genesis :=
  match lookupKey s.genesisMap cid with
  | some g => .ok g
  | none => .error .StorageError

/-- Modelled from the spec: `Store::transition` point lookup. -/
def Store.transition (s : Store) (id : Nat) : Except Error GNode :=
  match lookupKey s.transitions id with
  | some t => .ok t
  | none => .error .StorageError

/-- Modelled from the spec: `Store::extension` point lookup. -/
def Store.extensionNode (s : Store) (id : Nat) : Except Error GNode :=
  match lookupKey s.extensions id with
  | some e => .ok e
  | none => .error .StorageError

/-- Modelled from the spec: `Store::anchor` point lookup. -/
def Store.anchor (s : Store) (aid : Nat) : Except Error Anchor :=
  match lookupKey s.anchors aid with
  | some a => .ok a
  | none => .error .StorageError

/-- Modelled from the spec: `Store::add_anchor`, persisting the anchor
keyed by its identifier; fails with a StorageError on the modelled failing
keys. -/
def Store.addAnchor (s : Store) (a : Anchor) : Except Error Store :=
  if a.anchorId ∈ s.failKeys then .error .StorageError
  else .ok { s with anchors := insertKeyed s.anchors a.anchorId a }

/-- Modelled from the spec: `Store::add_transition`. -/
def Store.addTransition (s : Store) (t : GNode) : Except Error Store :=
  if t.nodeId ∈ s.failKeys then .error .StorageError
  else .ok { s with transitions := insertKeyed s.transitions t.nodeId t }

/-- Modelled from the spec: `Store::add_extension`. -/
def Store.addExtension (s : Store) (e : GNode) : Except Error Store :=
  if e.nodeId ∈ s.failKeys then .error .StorageError
  else .ok { s with extensions := insertKeyed s.extensions e.nodeId e }

/-- Modelled from the spec: the Index collaborator, mapping a transition's
node identifier to the identifier of the anchor committing it. -/
structure Index where
  map : List (Nat × Nat)
deriving DecidableEq, Repr

/-- Modelled from the spec: `anchor_id_by_transition_id`, failing with an
IndexError when the transition was never anchored locally. -/
def Index.anchorIdByTransitionId (ix : Index) (id : Nat) : Except Error Nat :=
  match lookupKey ix.map id with
  | some aid => .ok aid
  | none => .error .IndexError

/-- The stash runtime: a Store and an Index. -/
structure Runtime where
  storage : Store
  indexer : Index
deriving DecidableEq, Repr

/-- The polymorphic `node: &impl Node` argument of `consign`, downcast in
the source to a Transition, an Extension, or (failing both) the Genesis. -/
inductive NodeArg where
  | transition (t : GNode)
  | extensionNode (e : GNode)
  | genesis (g : Genesis)
deriving DecidableEq, Repr

/-- The parent identifiers used to seed the traversal queue of `consign`. -/
def NodeArg.parentIds : NodeArg → List Nat
  | .transition t => t.parentIds
  | .extensionNode e => e.parentIds
  | .genesis _ => []

/-- The node identifier used for the endpoint list of the consignment. -/
def NodeArg.nodeId : NodeArg → Nat
  | .transition t => t.nodeId
  | .extensionNode e => e.nodeId
  | .genesis g => g.contractId

/-- The FIFO ancestor-traversal loop of `consign` (src/stashd/stash.rs,
`while let Some(node_id) = sources.pop_front()`), with an explicit fuel
parameter standing for the number of loop iterations still allowed; `none`
means the fuel was exhausted before the loop finished. Each non-genesis
identifier is resolved through the Index and the anchor Store, then
exactly one of the transition and extension lookups must succeed; the
found node is fully concealed, appended to the matching accumulator, and
its parents are enqueued. -/
def consignLoop (r : Runtime) (genId : Nat) :
    Nat → List Nat → List (Anchor × GNode) → List GNode →
    Option (Except Error (List (Anchor × GNode) × List GNode))
  | _, [], ts, es => some (.ok (ts, es))
  | 0, _ :: _, _, _ => none
  | fuel + 1, id :: q, ts, es =>
    if id = genId then consignLoop r genId fuel q ts es
    else
      match r.indexer.anchorIdByTransitionId id with
      | .error e => some (.error e)
      | .ok aid =>
        match r.storage.anchor aid with
        | .error e => some (.error e)
        | .ok anchor =>
          match r.storage.transition id, r.storage.extensionNode id with
          | .ok t, .error _ =>
              consignLoop r genId fuel (q ++ t.parentIds)
                (ts ++ [(anchor, t.concealAll)]) es
          | .error _, .ok ex =>
              consignLoop r genId fuel (q ++ ex.parentIds) ts
                (es ++ [ex.concealAll])
          | _, _ => some (.error .StorageError)

/-- `Stash::consign` (src/stashd/stash.rs): load the genesis, conceal the
expose set, reveal-filter the target node (a Transition requires the
anchor argument; the Genesis is rejected), run the ancestor traversal, and
assemble the Consignment. `fuel` bounds the traversal loop; `none` means
the bound was hit. -/
def consign (r : Runtime) (contractId : Nat) (node : NodeArg)
    (anchor : Option Anchor) (expose : List SealEndpoint) (fuel : Nat) :
    Option (Except Error Consignment) :=
  match r.storage.genesis contractId with
  | .error e => some (.error e)
  | .ok genesis =>
    let concealedEndpoints := expose.map SealEndpoint.conceal
    let start : Except Error (List (Anchor × GNode) × List GNode) :=
      match node with
      | .transition t =>
        match anchor with
        | none => .error .AnchorParameterIsRequired
        | some a => .ok ([(a, t.concealExceptSet concealedEndpoints)], [])
      | .extensionNode e =>
          .ok ([], [e.concealExceptSet concealedEndpoints])
      | .genesis _ => .error .GenesisNode
    match start with
    | .error e => some (.error e)
    | .ok (ts0, es0) =>
      match consignLoop r genesis.contractId fuel node.parentIds ts0 es0 with
      | none => none
      | some (.error e) => some (.error e)
      | some (.ok (ts, es)) =>
          some (.ok { genesis := genesis,
                      endpoints := expose.map (fun op => (node.nodeId, op)),
                      stateTransitions := ts,
                      stateExtensions := es })

/-- The first loop of `merge` over the consignment's (anchor, transition)
pairs: reveal the known seals in the transition's owned rights, then
persist the anchor and afterwards the transition. Returns the final store,
the list of intermediate stores after each successful add (in order), and
the result; the first StorageError stops the loop. -/
def mergeTransitions (s : Store) (ks : List OutpointReveal) :
    List (Anchor × GNode) → Store × List Store × Except Error Unit
  | [] => (s, [], .ok ())
  | (a, t) :: rest =>
    let t' := t.revealKnownSeals ks
    match s.addAnchor a with
    | .error e => (s, [], .error e)
    | .ok s1 =>
      match s1.addTransition t' with
      | .error e => (s1, [s1], .error e)
      | .ok s2 =>
        let res := mergeTransitions s2 ks rest
        (res.1, s1 :: s2 :: res.2.1, res.2.2)

/-- The second loop of `merge`, over the consignment's extensions: reveal
the known seals, then persist the extension (no anchor). -/
def mergeExtensions (s : Store) (ks : List OutpointReveal) :
    List GNode → Store × List Store × Except Error Unit
  | [] => (s, [], .ok ())
  | e :: rest =>
    let e' := e.revealKnownSeals ks
    match s.addExtension e' with
    | .error err => (s, [], .error err)
    | .ok s1 =>
      let res := mergeExtensions s1 ks rest
      (res.1, s1 :: res.2.1, res.2.2)

/-- `Stash::merge` (src/stashd/stash.rs): for every (anchor, transition)
pair reveal known seals and persist anchor then transition; then the same
for every extension. Returns the updated runtime, the ordered list of
intermediate storage states, and the result. -/
def merge (r : Runtime) (c : Consignment) (ks : List OutpointReveal) :
    Runtime × List Store × Except Error Unit :=
  let resT := mergeTransitions r.storage ks c.stateTransitions
  match resT.2.2 with
  | .error e => ({ r with storage := resT.1 }, resT.2.1, .error e)
  | .ok _ =>
    let resE := mergeExtensions resT.1 ks c.stateExtensions
    ({ r with storage := resE.1 }, resT.2.1 ++ resE.2.1, resE.2.2)

/-- A fresh stash: empty store, empty index. -/
def freshRuntime : Runtime :=
  { storage := { genesisMap := [], transitions := [], extensions := [],
                 anchors := [], failKeys := [] },
    indexer := { map := [] } }

/-- Variant tag of an assignment group, used to state that a
transformation preserves the variant. -/
def Assignments.tag : Assignments → Nat
  | .declarative _ => 0
  | .discreteFiniteField _ => 1
  | .customData _ => 2

/-- Pointwise concealment check for one (input, output) item pair of the
target node: a revealed item whose concealed seal is in the concealed
expose set stays revealed unchanged; a revealed item outside the set
appears as its concealed form, carrying no revealed payload; a concealed
item stays as it was. -/
def itemConcealOk (S : List Nat) : AssignItem × AssignItem → Bool
  | (.revealed rs st, y) =>
      if rs.conceal ∈ S then y == .revealed rs st
      else y == .concealed rs.conceal st
  | (.concealed s st, y) => y == .concealed s st

/-- Pointwise concealment check for corresponding item lists. -/
def itemsConcealOk (S : List Nat) (inp out : List AssignItem) : Bool :=
  inp.length == out.length && (inp.zip out).all (itemConcealOk S)

/-- Concealment check between an input node and its reveal-filtered output:
identifier, parent references, group keys and group variants are unchanged
and every item satisfies the pointwise check. -/
def nodeConcealOk (S : List Nat) (inp out : GNode) : Bool :=
  out.nodeId == inp.nodeId &&
  out.parentOwnedRights == inp.parentOwnedRights &&
  out.parentPublicRights == inp.parentPublicRights &&
  (inp.ownedRights.length == out.ownedRights.length &&
   (inp.ownedRights.zip out.ownedRights).all
     (fun pq => pq.1.1 == pq.2.1 &&
       (pq.1.2.tag == pq.2.2.tag &&
        itemsConcealOk S pq.1.2.items pq.2.2.items)))

/-- Whether every assignment item of the node is in the concealed state. -/
def allConcealed (n : GNode) : Bool :=
  n.ownedRights.all (fun p => p.2.items.all AssignItem.isConcealed)

/-- Pointwise revelation check for one (input, output) item pair of a
merged node: a concealed item whose seal commitment matches an entry of
the known seals is replaced by its revealed form built from that entry; a
concealed item with no matching entry remains concealed unchanged; a
revealed item stays as it was. -/
def revealItemOk (ks : List OutpointReveal) : AssignItem × AssignItem → Bool
  | (.concealed s st, y) =>
      match ks.find? (fun rr => rr.conceal == s) with
      | some rr => y == .revealed rr st
      | none => y == .concealed s st
  | (.revealed rs st, y) => y == .revealed rs st

/-- Revelation check for one (input, output) pair of owned-rights groups:
Declarative groups are stored unchanged; DiscreteFiniteField and
CustomData groups keep their variant and length and satisfy the pointwise
item check. -/
def groupRevealOk (ks : List OutpointReveal)
    (pq : (Nat × Assignments) × (Nat × Assignments)) : Bool :=
  pq.1.1 == pq.2.1 &&
  (match pq.1.2, pq.2.2 with
   | .declarative xs, .declarative ys => xs == ys
   | .discreteFiniteField xs, .discreteFiniteField ys =>
       xs.length == ys.length && (xs.zip ys).all (revealItemOk ks)
   | .customData xs, .customData ys =>
       xs.length == ys.length && (xs.zip ys).all (revealItemOk ks)
   | _, _ => false)

/-- Revelation check between a consignment node and its stored form:
identifier and parent references unchanged, and every owned-rights group
satisfies the group revelation check. -/
def nodeRevealOk (ks : List OutpointReveal) (inp out : GNode) : Bool :=
  out.nodeId == inp.nodeId &&
  out.parentOwnedRights == inp.parentOwnedRights &&
  out.parentPublicRights == inp.parentPublicRights &&
  (inp.ownedRights.length == out.ownedRights.length &&
   (inp.ownedRights.zip out.ownedRights).all (groupRevealOk ks))

/-- Concealment shape of a consignment produced for a target transition:
the target heads the transition list next to the supplied anchor and is
reveal-filtered against the concealed expose set, while every other
included transition and every included extension is fully concealed. -/
def targetTransConcealOk (S : List Nat) (a : Anchor) (t : GNode)
    (c : Consignment) : Bool :=
  match c.stateTransitions with
  | (a', tOut) :: rest =>
      a' == a && nodeConcealOk S t tOut &&
      rest.all (fun p => allConcealed p.2) &&
      c.stateExtensions.all allConcealed
  | [] => false

/-- Concealment shape of a consignment produced for a target extension. -/
def targetExtConcealOk (S : List Nat) (e : GNode) (c : Consignment) :
    Bool :=
  match c.stateExtensions with
  | eOut :: rest =>
      nodeConcealOk S e eOut && rest.all allConcealed &&
      c.stateTransitions.all (fun p => allConcealed p.2)
  | [] => false

/-- The parent identifiers referenced by the accumulated transitions and
extensions of a consignment under construction. -/
def accRefs (ts : List (Anchor × GNode)) (es : List GNode) : List Nat :=
  (ts.flatMap (fun x => x.2.parentIds)) ++ (es.flatMap GNode.parentIds)

/-- The node identifiers of the accumulated transitions and extensions. -/
def accIds (ts : List (Anchor × GNode)) (es : List GNode) : List Nat :=
  ts.map (fun x => x.2.nodeId) ++ es.map GNode.nodeId

/-- Every parent identifier referenced by a Transition or Extension
included in the consignment. -/
def consignmentParentRefs (c : Consignment) : List Nat :=
  accRefs c.stateTransitions c.stateExtensions

/-- The identifiers of the Transitions and Extensions included in the
consignment. -/
def consignmentMemberIds (c : Consignment) : List Nat :=
  accIds c.stateTransitions c.stateExtensions

/-- The measure weight of one queue identifier: (B+1) to the power of the
identifier's rank in an acyclicity witness. -/
def weight (B : Nat) (rank : Nat → Nat) (id : Nat) : Nat :=
  (B + 1) ^ rank id

/-- The termination measure of the traversal queue: the sum of the weights
of its identifiers. -/
def qMeasure (B : Nat) (rank : Nat → Nat) (q : List Nat) : Nat :=
  (q.map (weight B rank)).sum

/-- Sample genesis of contract 0, used to evaluate concrete runs. -/
def sampleGenesis : Genesis := ⟨0⟩

/-- Sample revealed seal definition. -/
def sampleReveal : OutpointReveal := ⟨10, 1, 99⟩

/-- Second sample revealed seal definition. -/
def sampleReveal2 : OutpointReveal := ⟨20, 2, 7⟩

/-- Sample anchor. -/
def sampleAnchor : Anchor := ⟨100⟩

/-- Sample ancestor transition (node 2, child of genesis) stored in the
sample stash, carrying a revealed custom-data item. -/
def ancTransition : GNode :=
  { nodeId := 2,
    parentOwnedRights := [(0, 0)],
    parentPublicRights := [],
    ownedRights := [(5, .customData [.revealed ⟨30, 3, 5⟩ 70])] }

/-- Sample target transition (node 1, consuming node 2) with one revealed
item whose endpoint is exposed, one revealed item that is not exposed, and
one already concealed item. -/
def targetTransition : GNode :=
  { nodeId := 1,
    parentOwnedRights := [(2, 0)],
    parentPublicRights := [],
    ownedRights :=
      [(5, .discreteFiniteField
        [.revealed sampleReveal 50, .revealed sampleReveal2 51,
         .concealed 77 60])] }

/-- Sample stash storage: genesis 0, ancestor transition 2 with its anchor
200. -/
def richStore : Store :=
  { genesisMap := [(0, sampleGenesis)],
    transitions := [(2, ancTransition)],
    extensions := [],
    anchors := [(200, ⟨200⟩)],
    failKeys := [] }

/-- Sample stash runtime: `richStore` plus the index entry anchoring node
2. -/
def richRuntime : Runtime :=
  { storage := richStore, indexer := ⟨[(2, 200)]⟩ }

/-- Sample transition referencing a parent (node 5) that was never
anchored locally: the sample index has no entry for it. -/
def orphanTransition : GNode :=
  { nodeId := 3, parentOwnedRights := [(5, 0)], parentPublicRights := [],
    ownedRights := [] }

/-- The consignment produced by consigning `targetTransition` from the
sample stash with an empty expose set: the target and its ancestor appear
fully concealed. -/
def roundtripConsignment : Consignment :=
  { genesis := sampleGenesis, endpoints := [],
    stateTransitions := [(sampleAnchor, targetTransition.concealAll),
                         (⟨200⟩, ancTransition.concealAll)],
    stateExtensions := [] }

/-- The consignment produced by consigning `targetTransition` from the
sample stash exposing the endpoint of `sampleReveal`: that item stays
revealed, the other items of the target and the whole ancestor are
concealed. -/
def exposedConsignment : Consignment :=
  { genesis := sampleGenesis,
    endpoints := [(1, .txOutpoint sampleReveal.conceal)],
    stateTransitions :=
      [(sampleAnchor, targetTransition.concealExceptSet
          [sampleReveal.conceal]),
       (⟨200⟩, ancTransition.concealAll)],
    stateExtensions := [] }

/-
  Helper lemmas shared by the claim theorems.
-/

theorem concealAll_nodeId (n : GNode) : n.concealAll.nodeId = n.nodeId := rfl

theorem concealAll_parentIds (n : GNode) :
    n.concealAll.parentIds = n.parentIds := rfl

theorem concealExceptSet_nodeId (S : List Nat) (n : GNode) :
    (n.concealExceptSet S).nodeId = n.nodeId := rfl

theorem concealExceptSet_parentIds (S : List Nat) (n : GNode) :
    (n.concealExceptSet S).parentIds = n.parentIds := rfl

theorem revealKnownSeals_nodeId (ks : List OutpointReveal) (n : GNode) :
    (n.revealKnownSeals ks).nodeId = n.nodeId := rfl

theorem lookupKey_nil {α : Type} (k : Nat) :
    lookupKey ([] : List (Nat × α)) k = none := rfl

theorem lookupKey_cons {α : Type} (p : Nat × α) (m : List (Nat × α))
    (k : Nat) :
    lookupKey (p :: m) k = if p.1 = k then some p.2 else lookupKey m k := by
  by_cases h : p.1 = k
  · simp [lookupKey, List.find?, h]
  · have hb : (p.1 == k) = false := beq_eq_false_iff_ne.mpr h
    simp [lookupKey, List.find?, hb, h]

theorem lookupKey_insertKeyed_self {α : Type} (m : List (Nat × α)) (k : Nat)
    (v : α) : lookupKey (insertKeyed m k v) k = some v := by
  induction m with
  | nil => simp [insertKeyed, lookupKey_cons, lookupKey_nil]
  | cons p rest ih =>
    by_cases h : p.1 = k
    · simp [insertKeyed, h, lookupKey_cons]
    · simp [insertKeyed, h, lookupKey_cons, ih]

theorem lookupKey_insertKeyed_ne {α : Type} (m : List (Nat × α))
    (k k' : Nat) (v : α) (h : k' ≠ k) :
    lookupKey (insertKeyed m k v) k' = lookupKey m k' := by
  induction m with
  | nil => simp [insertKeyed, lookupKey_cons, lookupKey_nil, Ne.symm h]
  | cons p rest ih =>
    by_cases hp : p.1 = k
    · simp [insertKeyed, hp, lookupKey_cons, Ne.symm h, hp ▸ Ne.symm h]
    · simp [insertKeyed, hp, lookupKey_cons, ih]

theorem insertKeyed_eq_of_lookup {α : Type} (m : List (Nat × α)) (k : Nat)
    (v : α) (h : lookupKey m k = some v) : insertKeyed m k v = m := by
  induction m with
  | nil => simp [lookupKey_nil] at h
  | cons p rest ih =>
    rw [lookupKey_cons] at h
    by_cases hp : p.1 = k
    · simp [hp] at h
      simp [insertKeyed, hp]
      exact Prod.ext hp.symm h.symm
    · simp [hp] at h
      simp [insertKeyed, hp, ih h]

theorem addAnchor_ok {s s' : Store} {a : Anchor}
    (h : s.addAnchor a = .ok s') :
    a.anchorId ∉ s.failKeys ∧
    s' = { s with anchors := insertKeyed s.anchors a.anchorId a } := by
  by_cases hf : a.anchorId ∈ s.failKeys <;>
    simp [Store.addAnchor, hf] at h <;> simp [hf, h.symm]

theorem addTransition_ok {s s' : Store} {t : GNode}
    (h : s.addTransition t = .ok s') :
    t.nodeId ∉ s.failKeys ∧
    s' = { s with transitions := insertKeyed s.transitions t.nodeId t } := by
  by_cases hf : t.nodeId ∈ s.failKeys <;>
    simp [Store.addTransition, hf] at h <;> simp [hf, h.symm]

theorem addExtension_ok {s s' : Store} {e : GNode}
    (h : s.addExtension e = .ok s') :
    e.nodeId ∉ s.failKeys ∧
    s' = { s with extensions := insertKeyed s.extensions e.nodeId e } := by
  by_cases hf : e.nodeId ∈ s.failKeys <;>
    simp [Store.addExtension, hf] at h <;> simp [hf, h.symm]

theorem addAnchor_error {s : Store} {a : Anchor} {e : Error}
    (h : s.addAnchor a = .error e) : e = .StorageError := by
  by_cases hf : a.anchorId ∈ s.failKeys <;>
    simp [Store.addAnchor, hf] at h <;> simp [h]

theorem addTransition_error {s : Store} {t : GNode} {e : Error}
    (h : s.addTransition t = .error e) : e = .StorageError := by
  by_cases hf : t.nodeId ∈ s.failKeys <;>
    simp [Store.addTransition, hf] at h <;> simp [h]

theorem addExtension_error {s : Store} {x : GNode} {e : Error}
    (h : s.addExtension x = .error e) : e = .StorageError := by
  by_cases hf : x.nodeId ∈ s.failKeys <;>
    simp [Store.addExtension, hf] at h <;> simp [h]

theorem mergeTransitions_error (ks : List OutpointReveal) :
    ∀ (l : List (Anchor × GNode)) (s : Store) (e : Error),
    (mergeTransitions s ks l).2.2 = .error e → e = .StorageError := by
  intro l
  induction l with
  | nil => intro s e h; simp [mergeTransitions] at h
  | cons p rest ih =>
    intro s e h
    obtain ⟨a, t⟩ := p
    cases ha : s.addAnchor a with
    | error e1 =>
      have hred : (mergeTransitions s ks ((a, t) :: rest)).2.2
          = Except.error e1 := by simp [mergeTransitions, ha]
      rw [hred] at h
      simp at h
      exact h ▸ addAnchor_error ha
    | ok s1 =>
      cases ht : s1.addTransition (t.revealKnownSeals ks) with
      | error e2 =>
        have hred : (mergeTransitions s ks ((a, t) :: rest)).2.2
            = Except.error e2 := by simp [mergeTransitions, ha, ht]
        rw [hred] at h
        simp at h
        exact h ▸ addTransition_error ht
      | ok s2 =>
        have hred : (mergeTransitions s ks ((a, t) :: rest)).2.2
            = (mergeTransitions s2 ks rest).2.2 := by
          simp [mergeTransitions, ha, ht]
        rw [hred] at h
        exact ih s2 e h

theorem mergeExtensions_error (ks : List OutpointReveal) :
    ∀ (l : List GNode) (s : Store) (e : Error),
    (mergeExtensions s ks l).2.2 = .error e → e = .StorageError := by
  intro l
  induction l with
  | nil => intro s e h; simp [mergeExtensions] at h
  | cons x rest ih =>
    intro s e h
    cases hx : s.addExtension (x.revealKnownSeals ks) with
    | error e1 =>
      have hred : (mergeExtensions s ks (x :: rest)).2.2
          = Except.error e1 := by simp [mergeExtensions, hx]
      rw [hred] at h
      simp at h
      exact h ▸ addExtension_error hx
    | ok s1 =>
      have hred : (mergeExtensions s ks (x :: rest)).2.2
          = (mergeExtensions s1 ks rest).2.2 := by
        simp [mergeExtensions, hx]
      rw [hred] at h
      exact ih s1 e h

theorem isConcealed_conceal (x : AssignItem) :
    x.conceal.isConcealed = true := by
  cases x <;> rfl

theorem items_mapItems (f : AssignItem → AssignItem) (a : Assignments) :
    (a.mapItems f).items = a.items.map f := by
  cases a <;> rfl

theorem tag_mapItems (f : AssignItem → AssignItem) (a : Assignments) :
    (a.mapItems f).tag = a.tag := by
  cases a <;> rfl

theorem allConcealed_concealAll (n : GNode) :
    allConcealed n.concealAll = true := by
  simp [allConcealed, GNode.concealAll, List.all_map, Function.comp,
        Assignments.concealAll, items_mapItems, isConcealed_conceal]

theorem all_zip_map {α β : Type} (l : List α) (f : α → β)
    (g : α × β → Bool) (h : ∀ x ∈ l, g (x, f x) = true) :
    (l.zip (l.map f)).all g = true := by
  induction l with
  | nil => rfl
  | cons a t ih =>
    simp only [List.map_cons, List.zip_cons_cons, List.all_cons]
    rw [h a (List.mem_cons_self a t), ih (fun x hx => h x (List.mem_cons_of_mem a hx))]
    rfl

theorem itemConcealOk_self (S : List Nat) (x : AssignItem) :
    itemConcealOk S (x, x.concealExcept S) = true := by
  cases x with
  | concealed s st => simp [itemConcealOk, AssignItem.concealExcept]
  | revealed rs st =>
    by_cases h : rs.conceal ∈ S <;>
      simp [itemConcealOk, AssignItem.concealExcept, h]

theorem itemsConcealOk_map (S : List Nat) (xs : List AssignItem) :
    itemsConcealOk S xs (xs.map (AssignItem.concealExcept S)) = true := by
  have h := all_zip_map xs (AssignItem.concealExcept S) (itemConcealOk S)
    (fun x _ => itemConcealOk_self S x)
  simp [itemsConcealOk, h]

theorem nodeConcealOk_self (S : List Nat) (n : GNode) :
    nodeConcealOk S n (n.concealExceptSet S) = true := by
  have hz : ((n.ownedRights.zip (n.ownedRights.map
      (fun p => (p.1, p.2.concealExceptSet S)))).all
      (fun pq => pq.1.1 == pq.2.1 &&
        (pq.1.2.tag == pq.2.2.tag &&
         itemsConcealOk S pq.1.2.items pq.2.2.items))) = true := by
    apply all_zip_map
    intro p _
    simp [Assignments.concealExceptSet, tag_mapItems, items_mapItems,
          itemsConcealOk_map]
  simp [nodeConcealOk, GNode.concealExceptSet, hz]

theorem revealItemOk_self (ks : List OutpointReveal) (x : AssignItem) :
    revealItemOk ks (x, x.revealSeals ks) = true := by
  cases x with
  | revealed rs st => simp [revealItemOk, AssignItem.revealSeals]
  | concealed s st =>
    cases hf : ks.find? (fun rr => rr.conceal == s) with
    | some rr => simp [revealItemOk, AssignItem.revealSeals, hf]
    | none => simp [revealItemOk, AssignItem.revealSeals, hf]

theorem groupRevealOk_self (ks : List OutpointReveal)
    (p : Nat × Assignments) :
    groupRevealOk ks (p, (p.1, p.2.revealKnownSeals ks)) = true := by
  obtain ⟨k, a⟩ := p
  cases a with
  | declarative xs => simp [groupRevealOk, Assignments.revealKnownSeals]
  | discreteFiniteField xs =>
    have h := all_zip_map xs (AssignItem.revealSeals ks) (revealItemOk ks)
      (fun x _ => revealItemOk_self ks x)
    simp [groupRevealOk, Assignments.revealKnownSeals, h]
  | customData xs =>
    have h := all_zip_map xs (AssignItem.revealSeals ks) (revealItemOk ks)
      (fun x _ => revealItemOk_self ks x)
    simp [groupRevealOk, Assignments.revealKnownSeals, h]

theorem nodeRevealOk_self (ks : List OutpointReveal) (n : GNode) :
    nodeRevealOk ks n (n.revealKnownSeals ks) = true := by
  have hz : ((n.ownedRights.zip (n.ownedRights.map
      (fun p => (p.1, p.2.revealKnownSeals ks)))).all
      (groupRevealOk ks)) = true := by
    apply all_zip_map
    intro p _
    exact groupRevealOk_self ks p
  simp [nodeRevealOk, GNode.revealKnownSeals, hz]

theorem mergeTransitions_cons_ok {ks : List OutpointReveal} {s sf : Store}
    {states : List Store} {a : Anchor} {t : GNode}
    {rest : List (Anchor × GNode)}
    (h : mergeTransitions s ks ((a, t) :: rest) = (sf, states, .ok ())) :
    ∃ s1 s2 states',
      s.addAnchor a = .ok s1 ∧
      s1.addTransition (t.revealKnownSeals ks) = .ok s2 ∧
      mergeTransitions s2 ks rest = (sf, states', .ok ()) ∧
      states = s1 :: s2 :: states' := by
  cases ha : s.addAnchor a with
  | error e =>
    rw [show mergeTransitions s ks ((a, t) :: rest) = (s, [], .error e)
      from by simp [mergeTransitions, ha]] at h
    simp at h
  | ok s1 =>
    cases ht : s1.addTransition (t.revealKnownSeals ks) with
    | error e =>
      rw [show mergeTransitions s ks ((a, t) :: rest) = (s1, [s1], .error e)
        from by simp [mergeTransitions, ha, ht]] at h
      simp at h
    | ok s2 =>
      rw [show mergeTransitions s ks ((a, t) :: rest)
          = ((mergeTransitions s2 ks rest).1,
             s1 :: s2 :: (mergeTransitions s2 ks rest).2.1,
             (mergeTransitions s2 ks rest).2.2)
        from by simp [mergeTransitions, ha, ht]] at h
      have h1 := congrArg Prod.fst h
      have h2 := congrArg (fun y => y.2.1) h
      have h3 := congrArg (fun y => y.2.2) h
      simp only at h1 h2 h3
      refine ⟨s1, s2, (mergeTransitions s2 ks rest).2.1, rfl, ht, ?_,
        h2.symm⟩
      calc mergeTransitions s2 ks rest
          = ((mergeTransitions s2 ks rest).1,
             (mergeTransitions s2 ks rest).2.1,
             (mergeTransitions s2 ks rest).2.2) := rfl
        _ = (sf, (mergeTransitions s2 ks rest).2.1, .ok ()) := by
            rw [h1, h3]

theorem mergeExtensions_cons_ok {ks : List OutpointReveal} {s sf : Store}
    {states : List Store} {x : GNode} {rest : List GNode}
    (h : mergeExtensions s ks (x :: rest) = (sf, states, .ok ())) :
    ∃ s1 states',
      s.addExtension (x.revealKnownSeals ks) = .ok s1 ∧
      mergeExtensions s1 ks rest = (sf, states', .ok ()) ∧
      states = s1 :: states' := by
  cases hx : s.addExtension (x.revealKnownSeals ks) with
  | error e =>
    rw [show mergeExtensions s ks (x :: rest) = (s, [], .error e)
      from by simp [mergeExtensions, hx]] at h
    simp at h
  | ok s1 =>
    rw [show mergeExtensions s ks (x :: rest)
        = ((mergeExtensions s1 ks rest).1,
           s1 :: (mergeExtensions s1 ks rest).2.1,
           (mergeExtensions s1 ks rest).2.2)
      from by simp [mergeExtensions, hx]] at h
    have h1 := congrArg Prod.fst h
    have h2 := congrArg (fun y => y.2.1) h
    have h3 := congrArg (fun y => y.2.2) h
    simp only at h1 h2 h3
    refine ⟨s1, (mergeExtensions s1 ks rest).2.1, rfl, ?_, h2.symm⟩
    calc mergeExtensions s1 ks rest
        = ((mergeExtensions s1 ks rest).1,
           (mergeExtensions s1 ks rest).2.1,
           (mergeExtensions s1 ks rest).2.2) := rfl
      _ = (sf, (mergeExtensions s1 ks rest).2.1, .ok ()) := by
          rw [h1, h3]

theorem mergeTransitions_lookup_preserved (ks : List OutpointReveal) :
    ∀ (l : List (Anchor × GNode)) (s : Store) (k : Nat),
    k ∉ l.map (fun p => p.2.nodeId) →
    lookupKey (mergeTransitions s ks l).1.transitions k
      = lookupKey s.transitions k := by
  intro l
  induction l with
  | nil => intro s k _; simp [mergeTransitions]
  | cons p rest ih =>
    intro s k hk
    obtain ⟨a, t⟩ := p
    simp only [List.map_cons, List.mem_cons] at hk
    push_neg at hk
    obtain ⟨hk1, hk2⟩ := hk
    cases ha : s.addAnchor a with
    | error e => simp [mergeTransitions, ha]
    | ok s1 =>
      obtain ⟨-, hs1⟩ := addAnchor_ok ha
      cases ht : s1.addTransition (t.revealKnownSeals ks) with
      | error e =>
        simp only [mergeTransitions, ha, ht]
        subst hs1
        simp
      | ok s2 =>
        obtain ⟨-, hs2⟩ := addTransition_ok ht
        have h3 := ih s2 k hk2
        have hs2t : s2.transitions = insertKeyed s.transitions
            (GNode.revealKnownSeals ks t).nodeId
            (GNode.revealKnownSeals ks t) := by rw [hs2, hs1]
        have hred : (mergeTransitions s ks ((a, t) :: rest)).1
            = (mergeTransitions s2 ks rest).1 := by
          simp [mergeTransitions, ha, ht]
        rw [hred, h3, hs2t]
        exact lookupKey_insertKeyed_ne _ _ _ _
          (by simpa [revealKnownSeals_nodeId] using hk1)

theorem mergeExtensions_lookup_preserved (ks : List OutpointReveal) :
    ∀ (l : List GNode) (s : Store) (k : Nat),
    k ∉ l.map GNode.nodeId →
    lookupKey (mergeExtensions s ks l).1.extensions k
      = lookupKey s.extensions k := by
  intro l
  induction l with
  | nil => intro s k _; simp [mergeExtensions]
  | cons x rest ih =>
    intro s k hk
    simp only [List.map_cons, List.mem_cons] at hk
    push_neg at hk
    obtain ⟨hk1, hk2⟩ := hk
    cases hx : s.addExtension (x.revealKnownSeals ks) with
    | error e => simp [mergeExtensions, hx]
    | ok s1 =>
      obtain ⟨-, hs1⟩ := addExtension_ok hx
      have h3 := ih s1 k hk2
      have hs1e : s1.extensions = insertKeyed s.extensions
          (GNode.revealKnownSeals ks x).nodeId
          (GNode.revealKnownSeals ks x) := by rw [hs1]
      have hred : (mergeExtensions s ks (x :: rest)).1
          = (mergeExtensions s1 ks rest).1 := by
        simp [mergeExtensions, hx]
      rw [hred, h3, hs1e]
      exact lookupKey_insertKeyed_ne _ _ _ _
        (by simpa [revealKnownSeals_nodeId] using hk1)

theorem mergeTransitions_persists (ks : List OutpointReveal) :
    ∀ (l : List (Anchor × GNode)) (s sf : Store) (states : List Store),
    mergeTransitions s ks l = (sf, states, .ok ()) →
    (l.map (fun p => p.2.nodeId)).Nodup →
    ∀ p ∈ l, lookupKey sf.transitions p.2.nodeId
      = some (p.2.revealKnownSeals ks) := by
  intro l
  induction l with
  | nil => intro s sf states _ _ p hp; simp at hp
  | cons q rest ih =>
    intro s sf states h hnd p hp
    obtain ⟨a, t⟩ := q
    obtain ⟨s1, s2, states', ha, ht, hrest, -⟩ := mergeTransitions_cons_ok h
    simp only [List.map_cons, List.nodup_cons] at hnd
    obtain ⟨hnd1, hnd2⟩ := hnd
    rcases List.mem_cons.mp hp with hp | hp
    · subst hp
      obtain ⟨-, hs2⟩ := addTransition_ok ht
      have hpre : lookupKey (mergeTransitions s2 ks rest).1.transitions
          t.nodeId = lookupKey s2.transitions t.nodeId :=
        mergeTransitions_lookup_preserved ks rest s2 t.nodeId hnd1
      rw [hrest] at hpre
      simp only at hpre ⊢
      rw [hpre, hs2]
      simp [revealKnownSeals_nodeId, lookupKey_insertKeyed_self]
    · exact ih s2 sf states' hrest hnd2 p hp

theorem mergeExtensions_persists (ks : List OutpointReveal) :
    ∀ (l : List GNode) (s sf : Store) (states : List Store),
    mergeExtensions s ks l = (sf, states, .ok ()) →
    (l.map GNode.nodeId).Nodup →
    ∀ x ∈ l, lookupKey sf.extensions x.nodeId
      = some (x.revealKnownSeals ks) := by
  intro l
  induction l with
  | nil => intro s sf states _ _ x hx; simp at hx
  | cons y rest ih =>
    intro s sf states h hnd x hx
    obtain ⟨s1, states', hy, hrest, -⟩ := mergeExtensions_cons_ok h
    simp only [List.map_cons, List.nodup_cons] at hnd
    obtain ⟨hnd1, hnd2⟩ := hnd
    rcases List.mem_cons.mp hx with hx | hx
    · subst hx
      obtain ⟨-, hs1⟩ := addExtension_ok hy
      have hpre : lookupKey (mergeExtensions s1 ks rest).1.extensions
          x.nodeId = lookupKey s1.extensions x.nodeId :=
        mergeExtensions_lookup_preserved ks rest s1 x.nodeId hnd1
      rw [hrest] at hpre
      simp only at hpre ⊢
      rw [hpre, hs1]
      simp [revealKnownSeals_nodeId, lookupKey_insertKeyed_self]
    · exact ih s1 sf states' hrest hnd2 x hx

theorem mergeTransitions_fields (ks : List OutpointReveal) :
    ∀ (l : List (Anchor × GNode)) (s : Store),
    (mergeTransitions s ks l).1.genesisMap = s.genesisMap ∧
    (mergeTransitions s ks l).1.extensions = s.extensions ∧
    (mergeTransitions s ks l).1.failKeys = s.failKeys := by
  intro l
  induction l with
  | nil => intro s; simp [mergeTransitions]
  | cons p rest ih =>
    intro s
    obtain ⟨a, t⟩ := p
    cases ha : s.addAnchor a with
    | error e1 => simp [mergeTransitions, ha]
    | ok s1 =>
      obtain ⟨-, hs1⟩ := addAnchor_ok ha
      cases ht : s1.addTransition (t.revealKnownSeals ks) with
      | error e2 =>
        simp only [mergeTransitions, ha, ht]
        simp [hs1]
      | ok s2 =>
        obtain ⟨-, hs2⟩ := addTransition_ok ht
        have h3 := ih s2
        simp only [mergeTransitions, ha, ht]
        subst hs2
        subst hs1
        simp [h3]

theorem mergeExtensions_fields (ks : List OutpointReveal) :
    ∀ (l : List GNode) (s : Store),
    (mergeExtensions s ks l).1.genesisMap = s.genesisMap ∧
    (mergeExtensions s ks l).1.transitions = s.transitions ∧
    (mergeExtensions s ks l).1.anchors = s.anchors ∧
    (mergeExtensions s ks l).1.failKeys = s.failKeys := by
  intro l
  induction l with
  | nil => intro s; simp [mergeExtensions]
  | cons x rest ih =>
    intro s
    cases hx : s.addExtension (x.revealKnownSeals ks) with
    | error e1 => simp [mergeExtensions, hx]
    | ok s1 =>
      obtain ⟨-, hs1⟩ := addExtension_ok hx
      have h3 := ih s1
      simp only [mergeExtensions, hx]
      subst hs1
      simp [h3]

theorem mergeExtensions_states_fields (ks : List OutpointReveal) :
    ∀ (l : List GNode) (s : Store),
    ∀ s' ∈ (mergeExtensions s ks l).2.1,
    s'.transitions = s.transitions ∧ s'.anchors = s.anchors := by
  intro l
  induction l with
  | nil => intro s s' hs'; simp [mergeExtensions] at hs'
  | cons x rest ih =>
    intro s s' hs'
    cases hx : s.addExtension (x.revealKnownSeals ks) with
    | error e =>
      rw [show (mergeExtensions s ks (x :: rest)).2.1 = [] from by
        simp [mergeExtensions, hx]] at hs'
      simp at hs'
    | ok s1 =>
      obtain ⟨-, hs1⟩ := addExtension_ok hx
      rw [show (mergeExtensions s ks (x :: rest)).2.1
          = s1 :: (mergeExtensions s1 ks rest).2.1 from by
        simp [mergeExtensions, hx]] at hs'
      rcases List.mem_cons.mp hs' with hs' | hs'
      · subst hs'
        rw [hs1]
        exact ⟨rfl, rfl⟩
      · have h2 := ih s1 s' hs'
        rw [hs1] at h2
        exact h2

theorem mergeTransitions_anchor_first (ks : List OutpointReveal)
    (pairsAll : List (Anchor × GNode))
    (hanch : ∀ p ∈ pairsAll, ∀ q ∈ pairsAll,
      p.1.anchorId = q.1.anchorId → p.1 = q.1)
    (hndAll : (pairsAll.map (fun p => p.2.nodeId)).Nodup) :
    ∀ (l : List (Anchor × GNode)) (s : Store),
    (∀ p ∈ l, p ∈ pairsAll) →
    (l.map (fun p => p.2.nodeId)).Nodup →
    (∀ p ∈ l, lookupKey s.transitions p.2.nodeId = none) →
    (∀ p ∈ pairsAll,
      lookupKey s.transitions p.2.nodeId = some (p.2.revealKnownSeals ks) →
      lookupKey s.anchors p.1.anchorId = some p.1) →
    (∀ s' ∈ (mergeTransitions s ks l).2.1,
      ∀ p ∈ pairsAll,
      lookupKey s'.transitions p.2.nodeId
          = some (p.2.revealKnownSeals ks) →
      lookupKey s'.anchors p.1.anchorId = some p.1) ∧
    (∀ p ∈ pairsAll,
      lookupKey (mergeTransitions s ks l).1.transitions p.2.nodeId
          = some (p.2.revealKnownSeals ks) →
      lookupKey (mergeTransitions s ks l).1.anchors p.1.anchorId
          = some p.1) := by
  intro l
  induction l with
  | nil =>
    intro s _ _ _ hgood
    constructor
    · intro s' hs'
      simp [mergeTransitions] at hs'
    · simpa [mergeTransitions] using hgood
  | cons q rest ih =>
    intro s hsub hndl habs hgood
    obtain ⟨a, t⟩ := q
    simp only [List.map_cons, List.nodup_cons] at hndl
    obtain ⟨hhead, hndrest⟩ := hndl
    have hmemAll : (a, t) ∈ pairsAll := hsub (a, t) (List.mem_cons_self _ _)
    cases ha : s.addAnchor a with
    | error e =>
      rw [show mergeTransitions s ks ((a, t) :: rest) = (s, [], .error e)
        from by simp [mergeTransitions, ha]]
      exact ⟨fun s' hs' => by simp at hs', hgood⟩
    | ok s1 =>
      obtain ⟨-, hs1⟩ := addAnchor_ok ha
      -- the anchor write changes no transitions and only adds the
      -- consistent anchor `a`, so the invariant holds in `s1`
      have hgood1 : ∀ p ∈ pairsAll,
          lookupKey s1.transitions p.2.nodeId
              = some (p.2.revealKnownSeals ks) →
          lookupKey s1.anchors p.1.anchorId = some p.1 := by
        intro p hp hstored
        rw [hs1] at hstored ⊢
        simp only at hstored ⊢
        by_cases hid : p.1.anchorId = a.anchorId
        · have : p.1 = a := hanch p hp (a, t) hmemAll hid
          rw [hid, lookupKey_insertKeyed_self, this]
        · rw [lookupKey_insertKeyed_ne _ _ _ _ hid]
          exact hgood p hp hstored
      cases ht : s1.addTransition (t.revealKnownSeals ks) with
      | error e =>
        rw [show mergeTransitions s ks ((a, t) :: rest)
            = (s1, [s1], .error e) from by simp [mergeTransitions, ha, ht]]
        refine ⟨fun s' hs' => ?_, hgood1⟩
        rcases List.mem_singleton.mp hs' with rfl
        exact hgood1
      | ok s2 =>
        obtain ⟨-, hs2⟩ := addTransition_ok ht
        have hanchors2 : s2.anchors = s1.anchors := by rw [hs2]
        have htrans2 : s2.transitions = insertKeyed s1.transitions
            t.nodeId (t.revealKnownSeals ks) := by
          rw [hs2, revealKnownSeals_nodeId]
        have hgood2 : ∀ p ∈ pairsAll,
            lookupKey s2.transitions p.2.nodeId
                = some (p.2.revealKnownSeals ks) →
            lookupKey s2.anchors p.1.anchorId = some p.1 := by
          intro p hp hstored
          rw [hanchors2]
          by_cases hid : p.2.nodeId = t.nodeId
          · have hpeq : p = (a, t) :=
              List.inj_on_of_nodup_map hndAll hp hmemAll hid
            subst hpeq
            rw [hs1]
            simp only
            rw [lookupKey_insertKeyed_self]
          · rw [htrans2, lookupKey_insertKeyed_ne _ _ _ _ hid] at hstored
            exact hgood1 p hp hstored
        have habs2 : ∀ p ∈ rest,
            lookupKey s2.transitions p.2.nodeId = none := by
          intro p hp
          have hne : p.2.nodeId ≠ t.nodeId := by
            intro he
            exact hhead (he ▸ List.mem_map_of_mem _ hp)
          rw [htrans2, lookupKey_insertKeyed_ne _ _ _ _ hne]
          have hst : s1.transitions = s.transitions := by rw [hs1]
          rw [hst]
          exact habs p (List.mem_cons_of_mem _ hp)
        have hrec := ih s2 (fun p hp => hsub p (List.mem_cons_of_mem _ hp))
          hndrest habs2 hgood2
        rw [show mergeTransitions s ks ((a, t) :: rest)
            = ((mergeTransitions s2 ks rest).1,
               s1 :: s2 :: (mergeTransitions s2 ks rest).2.1,
               (mergeTransitions s2 ks rest).2.2) from by
          simp [mergeTransitions, ha, ht]]
        refine ⟨fun s' hs' => ?_, hrec.2⟩
        rcases List.mem_cons.mp hs' with rfl | hs'
        · exact hgood1
        rcases List.mem_cons.mp hs' with rfl | hs'
        · exact hgood2
        · exact hrec.1 s' hs'

theorem merge_ok_inv {r r' : Runtime} {c : Consignment}
    {ks : List OutpointReveal} {states : List Store}
    (h : merge r c ks = (r', states, .ok ())) :
    mergeTransitions r.storage ks c.stateTransitions
      = ((mergeTransitions r.storage ks c.stateTransitions).1,
         (mergeTransitions r.storage ks c.stateTransitions).2.1,
         .ok ()) ∧
    mergeExtensions (mergeTransitions r.storage ks c.stateTransitions).1
        ks c.stateExtensions
      = (r'.storage,
         (mergeExtensions (mergeTransitions r.storage ks
           c.stateTransitions).1 ks c.stateExtensions).2.1, .ok ()) ∧
    r'.indexer = r.indexer := by
  cases hTr : (mergeTransitions r.storage ks c.stateTransitions).2.2 with
  | error e =>
    exfalso
    have h3 := congrArg (fun y => y.2.2) h
    simp only [merge] at h3
    rw [hTr] at h3
    simp at h3
  | ok u =>
    cases u
    have h1 := congrArg (fun y => y.1.storage) h
    have h3 := congrArg (fun y => y.2.2) h
    have h5 := congrArg (fun y => y.1.indexer) h
    simp only [merge] at h1 h3 h5
    rw [hTr] at h1 h3 h5
    simp only at h1 h3 h5
    refine ⟨?_, ?_, h5.symm⟩
    · calc mergeTransitions r.storage ks c.stateTransitions
          = ((mergeTransitions r.storage ks c.stateTransitions).1,
             (mergeTransitions r.storage ks c.stateTransitions).2.1,
             (mergeTransitions r.storage ks c.stateTransitions).2.2) := rfl
        _ = _ := by rw [hTr]
    · calc mergeExtensions (mergeTransitions r.storage ks
            c.stateTransitions).1 ks c.stateExtensions
          = ((mergeExtensions (mergeTransitions r.storage ks
               c.stateTransitions).1 ks c.stateExtensions).1,
             (mergeExtensions (mergeTransitions r.storage ks
               c.stateTransitions).1 ks c.stateExtensions).2.1,
             (mergeExtensions (mergeTransitions r.storage ks
               c.stateTransitions).1 ks c.stateExtensions).2.2) := rfl
        _ = _ := by rw [h1, h3]

theorem mergeTransitions_ok_notfail (ks : List OutpointReveal) :
    ∀ (l : List (Anchor × GNode)) (s sf : Store) (states : List Store),
    mergeTransitions s ks l = (sf, states, .ok ()) →
    ∀ p ∈ l, p.1.anchorId ∉ s.failKeys ∧ p.2.nodeId ∉ s.failKeys := by
  intro l
  induction l with
  | nil => intro s sf states _ p hp; simp at hp
  | cons q rest ih =>
    intro s sf states h p hp
    obtain ⟨a, t⟩ := q
    obtain ⟨s1, s2, states', ha, ht, hrest, -⟩ := mergeTransitions_cons_ok h
    obtain ⟨hfa, hs1⟩ := addAnchor_ok ha
    obtain ⟨hft, hs2⟩ := addTransition_ok ht
    have hfk1 : s1.failKeys = s.failKeys := by rw [hs1]
    have hfk2 : s2.failKeys = s.failKeys := by rw [hs2, hs1]
    rcases List.mem_cons.mp hp with hp | hp
    · subst hp
      refine ⟨hfa, ?_⟩
      rw [← hfk1]
      simpa [revealKnownSeals_nodeId] using hft
    · have := ih s2 sf states' hrest p hp
      rw [hfk2] at this
      exact this

theorem mergeExtensions_ok_notfail (ks : List OutpointReveal) :
    ∀ (l : List GNode) (s sf : Store) (states : List Store),
    mergeExtensions s ks l = (sf, states, .ok ()) →
    ∀ x ∈ l, x.nodeId ∉ s.failKeys := by
  intro l
  induction l with
  | nil => intro s sf states _ x hx; simp at hx
  | cons y rest ih =>
    intro s sf states h x hx
    obtain ⟨s1, states', hy, hrest, -⟩ := mergeExtensions_cons_ok h
    obtain ⟨hfy, hs1⟩ := addExtension_ok hy
    have hfk1 : s1.failKeys = s.failKeys := by rw [hs1]
    rcases List.mem_cons.mp hx with hx | hx
    · subst hx
      simpa [revealKnownSeals_nodeId] using hfy
    · have := ih s1 sf states' hrest x hx
      rw [hfk1] at this
      exact this

theorem mergeTransitions_anchor_preserved (ks : List OutpointReveal) :
    ∀ (l : List (Anchor × GNode)) (s : Store) (aid : Nat) (v : Anchor),
    lookupKey s.anchors aid = some v →
    (∀ q ∈ l, q.1.anchorId = aid → q.1 = v) →
    lookupKey (mergeTransitions s ks l).1.anchors aid = some v := by
  intro l
  induction l with
  | nil => intro s aid v hv _; simpa [mergeTransitions] using hv
  | cons q rest ih =>
    intro s aid v hv hcons
    obtain ⟨a, t⟩ := q
    cases ha : s.addAnchor a with
    | error e => simpa [mergeTransitions, ha] using hv
    | ok s1 =>
      obtain ⟨-, hs1⟩ := addAnchor_ok ha
      have hv1 : lookupKey s1.anchors aid = some v := by
        rw [hs1]
        simp only
        by_cases hid : a.anchorId = aid
        · have : a = v := hcons (a, t) (List.mem_cons_self _ _) hid
          subst this
          rw [hid, lookupKey_insertKeyed_self]
        · rw [lookupKey_insertKeyed_ne _ _ _ _ (Ne.symm hid)]
          exact hv
      cases ht : s1.addTransition (t.revealKnownSeals ks) with
      | error e => simpa [mergeTransitions, ha, ht] using hv1
      | ok s2 =>
        obtain ⟨-, hs2⟩ := addTransition_ok ht
        have hv2 : lookupKey s2.anchors aid = some v := by
          rw [hs2]
          exact hv1
        have hred : (mergeTransitions s ks ((a, t) :: rest)).1
            = (mergeTransitions s2 ks rest).1 := by
          simp [mergeTransitions, ha, ht]
        rw [hred]
        exact ih s2 aid v hv2
          (fun q hq hid => hcons q (List.mem_cons_of_mem _ hq) hid)

theorem mergeTransitions_anchors_persist (ks : List OutpointReveal) :
    ∀ (l : List (Anchor × GNode)) (s sf : Store) (states : List Store),
    mergeTransitions s ks l = (sf, states, .ok ()) →
    (∀ p ∈ l, ∀ q ∈ l, p.1.anchorId = q.1.anchorId → p.1 = q.1) →
    ∀ p ∈ l, lookupKey sf.anchors p.1.anchorId = some p.1 := by
  intro l
  induction l with
  | nil => intro s sf states _ _ p hp; simp at hp
  | cons q rest ih =>
    intro s sf states h hanch p hp
    obtain ⟨a, t⟩ := q
    obtain ⟨s1, s2, states', ha, ht, hrest, -⟩ := mergeTransitions_cons_ok h
    obtain ⟨-, hs1⟩ := addAnchor_ok ha
    obtain ⟨-, hs2⟩ := addTransition_ok ht
    have hsf : (mergeTransitions s2 ks rest).1 = sf := congrArg Prod.fst
      hrest
    rcases List.mem_cons.mp hp with hp | hp
    · subst hp
      have hv2 : lookupKey s2.anchors a.anchorId = some a := by
        rw [hs2, hs1]
        simp only
        rw [lookupKey_insertKeyed_self]
      rw [← hsf]
      exact mergeTransitions_anchor_preserved ks rest s2 a.anchorId a
        hv2 (fun q hq hid => hanch q (List.mem_cons_of_mem _ hq) (a, t)
          (List.mem_cons_self _ _) hid)
    · exact ih s2 sf states' hrest
        (fun x hx y hy hid => hanch x (List.mem_cons_of_mem _ hx) y
          (List.mem_cons_of_mem _ hy) hid) p hp

theorem mergeTransitions_noop (ks : List OutpointReveal) :
    ∀ (l : List (Anchor × GNode)) (s : Store),
    (∀ p ∈ l,
      lookupKey s.transitions p.2.nodeId
          = some (p.2.revealKnownSeals ks) ∧
      lookupKey s.anchors p.1.anchorId = some p.1 ∧
      p.1.anchorId ∉ s.failKeys ∧ p.2.nodeId ∉ s.failKeys) →
    (mergeTransitions s ks l).1 = s ∧
    (mergeTransitions s ks l).2.2 = .ok () := by
  intro l
  induction l with
  | nil => intro s _; simp [mergeTransitions]
  | cons q rest ih =>
    intro s hfacts
    obtain ⟨a, t⟩ := q
    obtain ⟨hT, hA, hfa, hft⟩ := hfacts (a, t) (List.mem_cons_self _ _)
    have ha : s.addAnchor a = .ok s := by
      simp [Store.addAnchor, hfa, insertKeyed_eq_of_lookup _ _ _ hA]
    have ht : s.addTransition (t.revealKnownSeals ks) = .ok s := by
      simp [Store.addTransition, revealKnownSeals_nodeId, hft,
            insertKeyed_eq_of_lookup _ _ _ hT]
    have hred1 : (mergeTransitions s ks ((a, t) :: rest)).1
        = (mergeTransitions s ks rest).1 := by
      simp [mergeTransitions, ha, ht]
    have hred2 : (mergeTransitions s ks ((a, t) :: rest)).2.2
        = (mergeTransitions s ks rest).2.2 := by
      simp [mergeTransitions, ha, ht]
    rw [hred1, hred2]
    exact ih s (fun p hp => hfacts p (List.mem_cons_of_mem _ hp))

theorem mergeExtensions_noop (ks : List OutpointReveal) :
    ∀ (l : List GNode) (s : Store),
    (∀ x ∈ l,
      lookupKey s.extensions x.nodeId = some (x.revealKnownSeals ks) ∧
      x.nodeId ∉ s.failKeys) →
    (mergeExtensions s ks l).1 = s ∧
    (mergeExtensions s ks l).2.2 = .ok () := by
  intro l
  induction l with
  | nil => intro s _; simp [mergeExtensions]
  | cons y rest ih =>
    intro s hfacts
    obtain ⟨hE, hfy⟩ := hfacts y (List.mem_cons_self _ _)
    have hy : s.addExtension (y.revealKnownSeals ks) = .ok s := by
      simp [Store.addExtension, revealKnownSeals_nodeId, hfy,
            insertKeyed_eq_of_lookup _ _ _ hE]
    have hred1 : (mergeExtensions s ks (y :: rest)).1
        = (mergeExtensions s ks rest).1 := by
      simp [mergeExtensions, hy]
    have hred2 : (mergeExtensions s ks (y :: rest)).2.2
        = (mergeExtensions s ks rest).2.2 := by
      simp [mergeExtensions, hy]
    rw [hred1, hred2]
    exact ih s (fun x hx => hfacts x (List.mem_cons_of_mem _ hx))

theorem merge_genesisMap (r : Runtime) (c : Consignment)
    (ks : List OutpointReveal) :
    (merge r c ks).1.storage.genesisMap = r.storage.genesisMap := by
  simp only [merge]
  cases hT : (mergeTransitions r.storage ks c.stateTransitions).2.2 with
  | error e =>
    simp [(mergeTransitions_fields ks c.stateTransitions r.storage).1]
  | ok u =>
    simp [(mergeExtensions_fields ks c.stateExtensions _).1,
          (mergeTransitions_fields ks c.stateTransitions r.storage).1]

theorem consign_ok_inv
    (r : Runtime) (cid : Nat) (node : NodeArg) (anchor : Option Anchor)
    (expose : List SealEndpoint) (fuel : Nat) (c : Consignment)
    (h : consign r cid node anchor expose fuel = some (.ok c)) :
    ∃ g ts es,
      lookupKey r.storage.genesisMap cid = some g ∧
      c = { genesis := g,
            endpoints := expose.map (fun op => (node.nodeId, op)),
            stateTransitions := ts, stateExtensions := es } ∧
      ((∃ t a, node = .transition t ∧ anchor = some a ∧
          consignLoop r g.contractId fuel t.parentIds
            [(a, t.concealExceptSet (expose.map SealEndpoint.conceal))] []
            = some (.ok (ts, es))) ∨
       (∃ e, node = .extensionNode e ∧
          consignLoop r g.contractId fuel e.parentIds []
            [e.concealExceptSet (expose.map SealEndpoint.conceal)]
            = some (.ok (ts, es)))) := by
  cases hg0 : lookupKey r.storage.genesisMap cid with
  | none =>
    exfalso
    simp [consign, Store.genesis, hg0] at h
  | some g =>
    have hgen : r.storage.genesis cid = .ok g := by
      simp [Store.genesis, hg0]
    cases node with
    | genesis g' => simp [consign, hgen] at h
    | transition t =>
      cases anchor with
      | none => simp [consign, hgen] at h
      | some a =>
        simp only [consign, hgen] at h
        cases hloop : consignLoop r g.contractId fuel
            (NodeArg.transition t).parentIds
            [(a, t.concealExceptSet (expose.map SealEndpoint.conceal))] []
            with
        | none =>
          rw [hloop] at h
          simp at h
        | some res =>
          cases res with
          | error e =>
            rw [hloop] at h
            simp at h
          | ok p =>
            obtain ⟨ts, es⟩ := p
            rw [hloop] at h
            simp at h
            exact ⟨g, ts, es, rfl, h.symm, Or.inl ⟨t, a, rfl, rfl, hloop⟩⟩
    | extensionNode e =>
      simp only [consign, hgen] at h
      cases hloop : consignLoop r g.contractId fuel
          (NodeArg.extensionNode e).parentIds []
          [e.concealExceptSet (expose.map SealEndpoint.conceal)] with
      | none =>
        rw [hloop] at h
        simp at h
      | some res =>
        cases res with
        | error e1 =>
          rw [hloop] at h
          simp at h
        | ok p =>
          obtain ⟨ts, es⟩ := p
          rw [hloop] at h
          simp at h
          exact ⟨g, ts, es, rfl, h.symm, Or.inr ⟨e, rfl, hloop⟩⟩

theorem consignLoop_appends (r : Runtime) (genId : Nat) :
    ∀ (fuel : Nat) (q : List Nat) (ts tsf : List (Anchor × GNode))
      (es esf : List GNode),
    consignLoop r genId fuel q ts es = some (.ok (tsf, esf)) →
    ∃ ts2 es2, tsf = ts ++ ts2 ∧ esf = es ++ es2 ∧
      (∀ p ∈ ts2, allConcealed p.2 = true) ∧
      (∀ x ∈ es2, allConcealed x = true) := by
  intro fuel
  induction fuel with
  | zero =>
    intro q ts tsf es esf h
    cases q with
    | nil =>
      simp [consignLoop] at h
      exact ⟨[], [], by simp [h.1], by simp [h.2], by simp, by simp⟩
    | cons id q' => simp [consignLoop] at h
  | succ fuel ih =>
    intro q ts tsf es esf h
    cases q with
    | nil =>
      simp [consignLoop] at h
      exact ⟨[], [], by simp [h.1], by simp [h.2], by simp, by simp⟩
    | cons id q' =>
      by_cases hid : id = genId
      · have hred : consignLoop r genId (fuel + 1) (id :: q') ts es
            = consignLoop r genId fuel q' ts es := by
          simp [consignLoop, hid]
        rw [hred] at h
        exact ih q' ts tsf es esf h
      · cases hix : r.indexer.anchorIdByTransitionId id with
        | error e =>
          have hred : consignLoop r genId (fuel + 1) (id :: q') ts es
              = some (.error e) := by simp [consignLoop, hid, hix]
          rw [hred] at h
          simp at h
        | ok aid =>
          cases han : r.storage.anchor aid with
          | error e =>
            have hred : consignLoop r genId (fuel + 1) (id :: q') ts es
                = some (.error e) := by simp [consignLoop, hid, hix, han]
            rw [hred] at h
            simp at h
          | ok anchor =>
            cases htr : r.storage.transition id with
            | ok t =>
              cases hex : r.storage.extensionNode id with
              | error e2 =>
                have hred : consignLoop r genId (fuel + 1) (id :: q') ts es
                    = consignLoop r genId fuel (q' ++ t.parentIds)
                        (ts ++ [(anchor, t.concealAll)]) es := by
                  simp [consignLoop, hid, hix, han, htr, hex]
                rw [hred] at h
                obtain ⟨ts2, es2, h1, h2, h3, h4⟩ := ih _ _ _ _ _ h
                refine ⟨(anchor, t.concealAll) :: ts2, es2,
                  by simp [h1], h2, ?_, h4⟩
                intro p hp
                rcases List.mem_cons.mp hp with hp | hp
                · rw [hp]
                  exact allConcealed_concealAll t
                · exact h3 p hp
              | ok ex2 =>
                have hred : consignLoop r genId (fuel + 1) (id :: q') ts es
                    = some (.error .StorageError) := by
                  simp [consignLoop, hid, hix, han, htr, hex]
                rw [hred] at h
                simp at h
            | error e1 =>
              cases hex : r.storage.extensionNode id with
              | ok ex =>
                have hred : consignLoop r genId (fuel + 1) (id :: q') ts es
                    = consignLoop r genId fuel (q' ++ ex.parentIds) ts
                        (es ++ [ex.concealAll]) := by
                  simp [consignLoop, hid, hix, han, htr, hex]
                rw [hred] at h
                obtain ⟨ts2, es2, h1, h2, h3, h4⟩ := ih _ _ _ _ _ h
                refine ⟨ts2, ex.concealAll :: es2, h1, by simp [h2], h3, ?_⟩
                intro x hx
                rcases List.mem_cons.mp hx with hx | hx
                · rw [hx]
                  exact allConcealed_concealAll ex
                · exact h4 x hx
              | error e2 =>
                have hred : consignLoop r genId (fuel + 1) (id :: q') ts es
                    = some (.error .StorageError) := by
                  simp [consignLoop, hid, hix, han, htr, hex]
                rw [hred] at h
                simp at h

theorem store_transition_ok {s : Store} {id : Nat} {t : GNode}
    (h : s.transition id = .ok t) : lookupKey s.transitions id = some t := by
  cases hlk : lookupKey s.transitions id with
  | none => simp [Store.transition, hlk] at h
  | some t' =>
    simp [Store.transition, hlk] at h
    rw [h]

theorem store_extensionNode_ok {s : Store} {id : Nat} {e : GNode}
    (h : s.extensionNode id = .ok e) :
    lookupKey s.extensions id = some e := by
  cases hlk : lookupKey s.extensions id with
  | none => simp [Store.extensionNode, hlk] at h
  | some e' =>
    simp [Store.extensionNode, hlk] at h
    rw [h]

theorem lookupKey_singleton {α : Type} (k : Nat) (v : α) (id : Nat)
    (x : α) (h : lookupKey [(k, v)] id = some x) : x = v ∧ k = id := by
  rw [lookupKey_cons] at h
  split at h
  · next heq =>
    simp at h
    exact ⟨h.symm, heq⟩
  · simp [lookupKey_nil] at h

theorem accRefs_left {p : Nat} {ts : List (Anchor × GNode)}
    {es : List GNode} (hp : p ∈ ts.flatMap (fun y => y.2.parentIds)) :
    p ∈ accRefs ts es :=
  List.mem_append.mpr (Or.inl hp)

theorem accRefs_right {p : Nat} {ts : List (Anchor × GNode)}
    {es : List GNode} (hp : p ∈ es.flatMap GNode.parentIds) :
    p ∈ accRefs ts es :=
  List.mem_append.mpr (Or.inr hp)

theorem accRefs_append_trans (ts : List (Anchor × GNode))
    (es : List GNode) (x : Anchor × GNode) :
    accRefs (ts ++ [x]) es
      = (ts.flatMap (fun y => y.2.parentIds)) ++ x.2.parentIds ++
        (es.flatMap GNode.parentIds) := by
  simp [accRefs, List.append_assoc]

theorem accRefs_append_ext (ts : List (Anchor × GNode))
    (es : List GNode) (x : GNode) :
    accRefs ts (es ++ [x])
      = accRefs ts es ++ x.parentIds := by
  simp [accRefs, List.append_assoc]

theorem accIds_mono_app (ts ts2 : List (Anchor × GNode))
    (es es2 : List GNode) :
    ∀ p ∈ accIds ts es, p ∈ accIds (ts ++ ts2) (es ++ es2) := by
  intro p hp
  rcases List.mem_append.mp hp with hp | hp
  · refine List.mem_append.mpr (Or.inl ?_)
    rw [List.map_append]
    exact List.mem_append.mpr (Or.inl hp)
  · refine List.mem_append.mpr (Or.inr ?_)
    rw [List.map_append]
    exact List.mem_append.mpr (Or.inl hp)

theorem accIds_mono_trans (ts : List (Anchor × GNode)) (es : List GNode)
    (x : Anchor × GNode) :
    ∀ p ∈ accIds ts es, p ∈ accIds (ts ++ [x]) es := by
  intro p hp
  rcases List.mem_append.mp hp with hp | hp
  · refine List.mem_append.mpr (Or.inl ?_)
    rw [List.map_append]
    exact List.mem_append.mpr (Or.inl hp)
  · exact List.mem_append.mpr (Or.inr hp)

theorem accIds_mono_ext (ts : List (Anchor × GNode)) (es : List GNode)
    (x : GNode) :
    ∀ p ∈ accIds ts es, p ∈ accIds ts (es ++ [x]) := by
  intro p hp
  rcases List.mem_append.mp hp with hp | hp
  · exact List.mem_append.mpr (Or.inl hp)
  · refine List.mem_append.mpr (Or.inr ?_)
    rw [List.map_append]
    exact List.mem_append.mpr (Or.inl hp)

theorem consignLoop_closure (r : Runtime) (genId : Nat)
    (hwfT : ∀ id t, lookupKey r.storage.transitions id = some t →
      t.nodeId = id)
    (hwfE : ∀ id e, lookupKey r.storage.extensions id = some e →
      e.nodeId = id) :
    ∀ (fuel : Nat) (q : List Nat) (ts tsf : List (Anchor × GNode))
      (es esf : List GNode),
    consignLoop r genId fuel q ts es = some (.ok (tsf, esf)) →
    (∀ p ∈ accRefs ts es, p = genId ∨ p ∈ accIds ts es ∨ p ∈ q) →
    (∀ p ∈ accRefs tsf esf, p = genId ∨ p ∈ accIds tsf esf) ∧
    (∀ p ∈ q, p = genId ∨ p ∈ accIds tsf esf) := by
  intro fuel
  induction fuel with
  | zero =>
    intro q ts tsf es esf h hinv
    cases q with
    | nil =>
      simp [consignLoop] at h
      obtain ⟨h1, h2⟩ := h
      subst h1
      subst h2
      refine ⟨fun p hp => ?_, fun p hp => by simp at hp⟩
      rcases hinv p hp with hg | hm | hq
      · exact Or.inl hg
      · exact Or.inr hm
      · simp at hq
    | cons id q' => simp [consignLoop] at h
  | succ fuel ih =>
    intro q ts tsf es esf h hinv
    cases q with
    | nil =>
      simp [consignLoop] at h
      obtain ⟨h1, h2⟩ := h
      subst h1
      subst h2
      refine ⟨fun p hp => ?_, fun p hp => by simp at hp⟩
      rcases hinv p hp with hg | hm | hq
      · exact Or.inl hg
      · exact Or.inr hm
      · simp at hq
    | cons id q' =>
      by_cases hid : id = genId
      · rw [show consignLoop r genId (fuel + 1) (id :: q') ts es
            = consignLoop r genId fuel q' ts es from by
          simp [consignLoop, hid]] at h
        have hinv' : ∀ p ∈ accRefs ts es,
            p = genId ∨ p ∈ accIds ts es ∨ p ∈ q' := by
          intro p hp
          rcases hinv p hp with hg | hm | hq
          · exact Or.inl hg
          · exact Or.inr (Or.inl hm)
          · rcases List.mem_cons.mp hq with rfl | hq
            · exact Or.inl hid
            · exact Or.inr (Or.inr hq)
        obtain ⟨ha, hb⟩ := ih q' ts tsf es esf h hinv'
        refine ⟨ha, fun p hp => ?_⟩
        rcases List.mem_cons.mp hp with rfl | hp
        · exact Or.inl hid
        · exact hb p hp
      · cases hix : r.indexer.anchorIdByTransitionId id with
        | error e =>
          rw [show consignLoop r genId (fuel + 1) (id :: q') ts es
              = some (.error e) from by simp [consignLoop, hid, hix]] at h
          simp at h
        | ok aid =>
          cases han : r.storage.anchor aid with
          | error e =>
            rw [show consignLoop r genId (fuel + 1) (id :: q') ts es
                = some (.error e) from by
              simp [consignLoop, hid, hix, han]] at h
            simp at h
          | ok anchor =>
            cases htr : r.storage.transition id with
            | ok t =>
              cases hex : r.storage.extensionNode id with
              | error e2 =>
                have hnid : t.nodeId = id :=
                  hwfT id t (store_transition_ok htr)
                rw [show consignLoop r genId (fuel + 1) (id :: q') ts es
                    = consignLoop r genId fuel (q' ++ t.parentIds)
                        (ts ++ [(anchor, t.concealAll)]) es from by
                  simp [consignLoop, hid, hix, han, htr, hex]] at h
                have hidIn : id ∈ accIds (ts ++ [(anchor, t.concealAll)])
                    es := by
                  refine List.mem_append.mpr (Or.inl ?_)
                  rw [List.map_append]
                  refine List.mem_append.mpr (Or.inr ?_)
                  simp [concealAll_nodeId, hnid]
                have hinv' : ∀ p ∈ accRefs (ts ++ [(anchor, t.concealAll)])
                    es, p = genId ∨
                    p ∈ accIds (ts ++ [(anchor, t.concealAll)]) es ∨
                    p ∈ q' ++ t.parentIds := by
                  intro p hp
                  rw [accRefs_append_trans] at hp
                  have hold : p ∈ accRefs ts es →
                      p = genId ∨
                      p ∈ accIds (ts ++ [(anchor, t.concealAll)]) es ∨
                      p ∈ q' ++ t.parentIds := by
                    intro hp'
                    rcases hinv p hp' with hg | hm | hq
                    · exact Or.inl hg
                    · exact Or.inr (Or.inl (accIds_mono_trans ts es _ p hm))
                    · rcases List.mem_cons.mp hq with rfl | hq
                      · exact Or.inr (Or.inl hidIn)
                      · exact Or.inr (Or.inr (List.mem_append.mpr
                          (Or.inl hq)))
                  rcases List.mem_append.mp hp with hp | hp
                  · rcases List.mem_append.mp hp with hp | hp
                    · exact hold (accRefs_left hp)
                    · have hp2 : p ∈ t.parentIds := by
                        simpa [concealAll_parentIds] using hp
                      exact Or.inr (Or.inr (List.mem_append.mpr
                        (Or.inr hp2)))
                  · exact hold (accRefs_right hp)
                obtain ⟨ha, hb⟩ := ih _ _ _ _ _ h hinv'
                have hidFin : id ∈ accIds tsf esf := by
                  obtain ⟨ts2, es2, h1, h2, -, -⟩ :=
                    consignLoop_appends r genId fuel _ _ _ _ _ h
                  rw [h1, h2]
                  exact accIds_mono_app _ ts2 _ es2 id hidIn
                refine ⟨ha, fun p hp => ?_⟩
                rcases List.mem_cons.mp hp with rfl | hp
                · exact Or.inr hidFin
                · exact hb p (List.mem_append.mpr (Or.inl hp))
              | ok ex2 =>
                rw [show consignLoop r genId (fuel + 1) (id :: q') ts es
                    = some (.error .StorageError) from by
                  simp [consignLoop, hid, hix, han, htr, hex]] at h
                simp at h
            | error e1 =>
              cases hex : r.storage.extensionNode id with
              | ok ex =>
                have hnid : ex.nodeId = id :=
                  hwfE id ex (store_extensionNode_ok hex)
                rw [show consignLoop r genId (fuel + 1) (id :: q') ts es
                    = consignLoop r genId fuel (q' ++ ex.parentIds) ts
                        (es ++ [ex.concealAll]) from by
                  simp [consignLoop, hid, hix, han, htr, hex]] at h
                have hidIn : id ∈ accIds ts (es ++ [ex.concealAll]) := by
                  refine List.mem_append.mpr (Or.inr ?_)
                  rw [List.map_append]
                  refine List.mem_append.mpr (Or.inr ?_)
                  simp [concealAll_nodeId, hnid]
                have hinv' : ∀ p ∈ accRefs ts (es ++ [ex.concealAll]),
                    p = genId ∨
                    p ∈ accIds ts (es ++ [ex.concealAll]) ∨
                    p ∈ q' ++ ex.parentIds := by
                  intro p hp
                  rw [accRefs_append_ext] at hp
                  rcases List.mem_append.mp hp with hp | hp
                  · rcases hinv p hp with hg | hm | hq
                    · exact Or.inl hg
                    · exact Or.inr (Or.inl (accIds_mono_ext ts es _ p hm))
                    · rcases List.mem_cons.mp hq with rfl | hq
                      · exact Or.inr (Or.inl hidIn)
                      · exact Or.inr (Or.inr (List.mem_append.mpr
                          (Or.inl hq)))
                  · have hp2 : p ∈ ex.parentIds := by
                      simpa [concealAll_parentIds] using hp
                    exact Or.inr (Or.inr (List.mem_append.mpr (Or.inr hp2)))
                obtain ⟨ha, hb⟩ := ih _ _ _ _ _ h hinv'
                have hidFin : id ∈ accIds tsf esf := by
                  obtain ⟨ts2, es2, h1, h2, -, -⟩ :=
                    consignLoop_appends r genId fuel _ _ _ _ _ h
                  rw [h1, h2]
                  exact accIds_mono_app _ ts2 _ es2 id hidIn
                refine ⟨ha, fun p hp => ?_⟩
                rcases List.mem_cons.mp hp with rfl | hp
                · exact Or.inr hidFin
                · exact hb p (List.mem_append.mpr (Or.inl hp))
              | error e2 =>
                rw [show consignLoop r genId (fuel + 1) (id :: q') ts es
                    = some (.error .StorageError) from by
                  simp [consignLoop, hid, hix, han, htr, hex]] at h
                simp at h

theorem weight_pos (B : Nat) (rank : Nat → Nat) (id : Nat) :
    0 < weight B rank id :=
  Nat.pow_pos (Nat.succ_pos B)

theorem qMeasure_cons (B : Nat) (rank : Nat → Nat) (id : Nat)
    (q : List Nat) :
    qMeasure B rank (id :: q) = weight B rank id + qMeasure B rank q := by
  simp [qMeasure]

theorem qMeasure_append (B : Nat) (rank : Nat → Nat) (q q' : List Nat) :
    qMeasure B rank (q ++ q') = qMeasure B rank q + qMeasure B rank q' := by
  simp [qMeasure]

theorem qMeasure_parents_lt (B : Nat) (rank : Nat → Nat) (id : Nat)
    (ps : List Nat) (hlen : ps.length ≤ B)
    (hrk : ∀ p ∈ ps, rank p < rank id) :
    qMeasure B rank ps < weight B rank id := by
  cases ps with
  | nil =>
    simpa [qMeasure] using weight_pos B rank id
  | cons p0 ps' =>
    have hrpos : 1 ≤ rank id :=
      Nat.succ_le_of_lt (Nat.lt_of_le_of_lt (Nat.zero_le _)
        (hrk p0 (List.mem_cons_self _ _)))
    have hM : 0 < (B + 1) ^ (rank id - 1) :=
      Nat.pow_pos (Nat.succ_pos B)
    have hbound : ∀ w ∈ (p0 :: ps').map (weight B rank),
        w ≤ (B + 1) ^ (rank id - 1) := by
      intro w hw
      obtain ⟨p, hp, rfl⟩ := List.mem_map.mp hw
      have h1 : rank p ≤ rank id - 1 := by
        have := hrk p hp
        omega
      exact Nat.pow_le_pow_right (Nat.succ_pos B) h1
    calc qMeasure B rank (p0 :: ps')
        = ((p0 :: ps').map (weight B rank)).sum := rfl
      _ ≤ ((p0 :: ps').map (weight B rank)).length •
            ((B + 1) ^ (rank id - 1)) :=
          List.sum_le_card_nsmul _ _ hbound
      _ = (p0 :: ps').length * ((B + 1) ^ (rank id - 1)) := by
          simp [smul_eq_mul]
      _ ≤ B * ((B + 1) ^ (rank id - 1)) :=
          Nat.mul_le_mul_right _ hlen
      _ < (B + 1) * ((B + 1) ^ (rank id - 1)) :=
          (Nat.mul_lt_mul_right hM).mpr (Nat.lt_succ_self B)
      _ = ((B + 1) ^ (rank id - 1)) * (B + 1) := Nat.mul_comm _ _
      _ = (B + 1) ^ (rank id - 1 + 1) := (pow_succ _ _).symm
      _ = (B + 1) ^ rank id := by rw [Nat.sub_add_cancel hrpos]
      _ = weight B rank id := rfl

theorem consignLoop_terminates (r : Runtime) (genId : Nat) (B : Nat)
    (rank : Nat → Nat)
    (hBT : ∀ id t, lookupKey r.storage.transitions id = some t →
      t.parentIds.length ≤ B)
    (hBE : ∀ id e, lookupKey r.storage.extensions id = some e →
      e.parentIds.length ≤ B)
    (hrkT : ∀ id t, lookupKey r.storage.transitions id = some t →
      ∀ p ∈ t.parentIds, rank p < rank id)
    (hrkE : ∀ id e, lookupKey r.storage.extensions id = some e →
      ∀ p ∈ e.parentIds, rank p < rank id) :
    ∀ (fuel : Nat) (q : List Nat) (ts : List (Anchor × GNode))
      (es : List GNode),
    qMeasure B rank q < fuel →
    (consignLoop r genId fuel q ts es).isSome = true := by
  intro fuel
  induction fuel with
  | zero => intro q ts es hm; exact absurd hm (Nat.not_lt_zero _)
  | succ fuel ih =>
    intro q ts es hm
    cases q with
    | nil => simp [consignLoop]
    | cons id q' =>
      have hw : 0 < weight B rank id := weight_pos B rank id
      rw [qMeasure_cons] at hm
      by_cases hid : id = genId
      · rw [show consignLoop r genId (fuel + 1) (id :: q') ts es
            = consignLoop r genId fuel q' ts es from by
          simp [consignLoop, hid]]
        exact ih q' ts es (by omega)
      · cases hix : r.indexer.anchorIdByTransitionId id with
        | error e =>
          rw [show consignLoop r genId (fuel + 1) (id :: q') ts es
              = some (.error e) from by simp [consignLoop, hid, hix]]
          rfl
        | ok aid =>
          cases han : r.storage.anchor aid with
          | error e =>
            rw [show consignLoop r genId (fuel + 1) (id :: q') ts es
                = some (.error e) from by
              simp [consignLoop, hid, hix, han]]
            rfl
          | ok anchor =>
            cases htr : r.storage.transition id with
            | ok t =>
              cases hex : r.storage.extensionNode id with
              | error e2 =>
                rw [show consignLoop r genId (fuel + 1) (id :: q') ts es
                    = consignLoop r genId fuel (q' ++ t.parentIds)
                        (ts ++ [(anchor, t.concealAll)]) es from by
                  simp [consignLoop, hid, hix, han, htr, hex]]
                have hps : qMeasure B rank t.parentIds
                    < weight B rank id :=
                  qMeasure_parents_lt B rank id t.parentIds
                    (hBT id t (store_transition_ok htr))
                    (hrkT id t (store_transition_ok htr))
                refine ih _ _ _ ?_
                rw [qMeasure_append]
                omega
              | ok ex2 =>
                rw [show consignLoop r genId (fuel + 1) (id :: q') ts es
                    = some (.error .StorageError) from by
                  simp [consignLoop, hid, hix, han, htr, hex]]
                rfl
            | error e1 =>
              cases hex : r.storage.extensionNode id with
              | ok ex =>
                rw [show consignLoop r genId (fuel + 1) (id :: q') ts es
                    = consignLoop r genId fuel (q' ++ ex.parentIds) ts
                        (es ++ [ex.concealAll]) from by
                  simp [consignLoop, hid, hix, han, htr, hex]]
                have hps : qMeasure B rank ex.parentIds
                    < weight B rank id :=
                  qMeasure_parents_lt B rank id ex.parentIds
                    (hBE id ex (store_extensionNode_ok hex))
                    (hrkE id ex (store_extensionNode_ok hex))
                refine ih _ _ _ ?_
                rw [qMeasure_append]
                omega
              | error e2 =>
                rw [show consignLoop r genId (fuel + 1) (id :: q') ts es
                    = some (.error .StorageError) from by
                  simp [consignLoop, hid, hix, han, htr, hex]]
                rfl

theorem richStore_wfT : ∀ id t,
    lookupKey richStore.transitions id = some t → t.nodeId = id := by
  intro id t h
  obtain ⟨h1, h2⟩ := lookupKey_singleton 2 ancTransition id t h
  rw [h1, ← h2]
  rfl

theorem richStore_wfE : ∀ id e,
    lookupKey richStore.extensions id = some e → e.nodeId = id := by
  intro id e h
  have h' : (none : Option GNode) = some e := h
  exact Option.noConfusion h'

/-
  Claim theorems.
-/

/-- C1: for every successful `consign` over a content-addressed Store
(each stored node keyed by its own identifier), every parent identifier
referenced by the supplied node or by any Transition/Extension included
in the Consignment is either the contract's Genesis identifier or the
identifier of a Transition/Extension also included: the Consignment is an
ancestor-complete sub-DAG rooted at Genesis. -/
theorem consign_closure
    (r : Runtime) (cid : Nat) (node : NodeArg) (anchor : Option Anchor)
    (expose : List SealEndpoint) (fuel : Nat) (c : Consignment)
    (hwfT : ∀ id t, lookupKey r.storage.transitions id = some t →
      t.nodeId = id)
    (hwfE : ∀ id e, lookupKey r.storage.extensions id = some e →
      e.nodeId = id)
    (h : consign r cid node anchor expose fuel = some (.ok c)) :
    ∀ p ∈ node.parentIds ++ consignmentParentRefs c,
      p = c.genesis.contractId ∨ p ∈ consignmentMemberIds c := by
  obtain ⟨g, ts, es, hg, hc, hcase⟩ :=
    consign_ok_inv r cid node anchor expose fuel c h
  subst hc
  intro p hp
  rcases hcase with ⟨t, a, hnode, ha, hloop⟩ | ⟨e, hnode, hloop⟩
  · subst hnode
    have hinv : ∀ x ∈ accRefs
        [(a, t.concealExceptSet (expose.map SealEndpoint.conceal))] [],
        x = g.contractId ∨
        x ∈ accIds
          [(a, t.concealExceptSet (expose.map SealEndpoint.conceal))] [] ∨
        x ∈ t.parentIds := by
      intro x hx
      refine Or.inr (Or.inr ?_)
      have hx' : x ∈ (t.concealExceptSet
          (expose.map SealEndpoint.conceal)).parentIds := by
        simpa [accRefs] using hx
      rwa [concealExceptSet_parentIds] at hx'
    obtain ⟨ha1, hb1⟩ := consignLoop_closure r g.contractId hwfT hwfE
      fuel t.parentIds _ ts _ es hloop hinv
    rcases List.mem_append.mp hp with hp | hp
    · exact hb1 p hp
    · exact ha1 p hp
  · subst hnode
    have hinv : ∀ x ∈ accRefs []
        [e.concealExceptSet (expose.map SealEndpoint.conceal)],
        x = g.contractId ∨
        x ∈ accIds []
          [e.concealExceptSet (expose.map SealEndpoint.conceal)] ∨
        x ∈ e.parentIds := by
      intro x hx
      refine Or.inr (Or.inr ?_)
      have hx' : x ∈ (e.concealExceptSet
          (expose.map SealEndpoint.conceal)).parentIds := by
        simpa [accRefs] using hx
      rwa [concealExceptSet_parentIds] at hx'
    obtain ⟨ha1, hb1⟩ := consignLoop_closure r g.contractId hwfT hwfE
      fuel e.parentIds _ ts _ es hloop hinv
    rcases List.mem_append.mp hp with hp | hp
    · exact hb1 p hp
    · exact ha1 p hp

/-- Witness for C1: in the sample consignment, the target's parent
reference (node 2) is the identifier of an included transition. -/
theorem consign_closure_witness :
    2 = exposedConsignment.genesis.contractId ∨
    2 ∈ consignmentMemberIds exposedConsignment :=
  consign_closure richRuntime 0 (.transition targetTransition)
    (some sampleAnchor) [.txOutpoint sampleReveal.conceal] 10
    exposedConsignment richStore_wfT richStore_wfE (by decide) 2
    (by decide)

/-- C2: in every Consignment returned successfully by `consign`, the
target node appears first in its accumulator, reveal-filtered itemwise:
an item whose seal endpoint's concealed form is not among the concealed
forms of the expose set appears concealed with no revealed payload, an
item whose endpoint is in the expose set stays revealed, and every
assignment item of every other (ancestor) Transition/Extension included
is concealed regardless of the expose set. -/
theorem consign_concealment
    (r : Runtime) (cid : Nat) (node : NodeArg) (anchor : Option Anchor)
    (expose : List SealEndpoint) (fuel : Nat) (c : Consignment)
    (h : consign r cid node anchor expose fuel = some (.ok c)) :
    (∀ t a, node = .transition t → anchor = some a →
      targetTransConcealOk (expose.map SealEndpoint.conceal) a t c
        = true) ∧
    (∀ e, node = .extensionNode e →
      targetExtConcealOk (expose.map SealEndpoint.conceal) e c = true) := by
  obtain ⟨g, ts, es, hg, hc, hcase⟩ :=
    consign_ok_inv r cid node anchor expose fuel c h
  constructor
  · intro t a hnode hanchor
    subst hnode
    rcases hcase with ⟨t', a', heq, ha', hloop⟩ | ⟨e, heq, -⟩
    · cases heq
      rw [hanchor] at ha'
      cases ha'
      obtain ⟨ts2, es2, h1, h2, h3, h4⟩ :=
        consignLoop_appends r g.contractId fuel t.parentIds _ ts _ es hloop
      subst hc
      simp only [targetTransConcealOk]
      rw [h1]
      simp only [List.singleton_append]
      rw [h2]
      simp only [List.nil_append]
      have hrest : ts2.all (fun p => allConcealed p.2) = true :=
        List.all_eq_true.mpr (fun p hp => h3 p hp)
      have hexts : es2.all allConcealed = true :=
        List.all_eq_true.mpr (fun x hx => h4 x hx)
      simp [hrest, hexts, nodeConcealOk_self]
    · cases heq
  · intro e hnode
    subst hnode
    rcases hcase with ⟨t', a', heq, -, -⟩ | ⟨e', heq, hloop⟩
    · cases heq
    · cases heq
      obtain ⟨ts2, es2, h1, h2, h3, h4⟩ :=
        consignLoop_appends r g.contractId fuel e.parentIds [] ts _ es hloop
      subst hc
      simp only [targetExtConcealOk]
      rw [h2]
      simp only [List.singleton_append]
      rw [h1]
      simp only [List.nil_append]
      have hrest : es2.all allConcealed = true :=
        List.all_eq_true.mpr (fun x hx => h4 x hx)
      have htrans : ts2.all (fun p => allConcealed p.2) = true :=
        List.all_eq_true.mpr (fun p hp => h3 p hp)
      simp [hrest, htrans, nodeConcealOk_self]

/-- Witness for C2: the concrete consignment of the sample stash with the
endpoint of `sampleReveal` exposed satisfies the concealment shape. -/
theorem consign_concealment_witness :
    targetTransConcealOk [sampleReveal.conceal] sampleAnchor
      targetTransition exposedConsignment = true :=
  (consign_concealment richRuntime 0 (.transition targetTransition)
    (some sampleAnchor) [.txOutpoint sampleReveal.conceal] 10
    exposedConsignment (by decide)).1 targetTransition sampleAnchor rfl rfl

/-- C3: given the contract's Genesis is present in the Store, `consign`
fails with GenesisNode whenever the supplied node is the Genesis (neither
a Transition nor an Extension), and fails with AnchorParameterIsRequired
whenever the supplied node is a Transition and the anchor argument is
absent; in both cases no Consignment is returned. -/
theorem consign_genesis_and_anchor_preconditions
    (r : Runtime) (cid : Nat) (g : Genesis) (anchor : Option Anchor)
    (expose : List SealEndpoint) (fuel : Nat)
    (hg : lookupKey r.storage.genesisMap cid = some g) :
    (∀ g' : Genesis,
      consign r cid (.genesis g') anchor expose fuel
        = some (.error .GenesisNode)) ∧
    (∀ t : GNode,
      consign r cid (.transition t) none expose fuel
        = some (.error .AnchorParameterIsRequired)) := by
  refine ⟨fun g' => ?_, fun t => ?_⟩ <;> simp [consign, Store.genesis, hg]

/-- Witness for C3: the sample stash rejects consigning its genesis, and
rejects consigning a transition without the anchor argument. -/
theorem consign_genesis_and_anchor_preconditions_witness :
    consign richRuntime 0 (.genesis sampleGenesis) (some sampleAnchor) [] 10
      = some (.error .GenesisNode) ∧
    consign richRuntime 0 (.transition targetTransition) none [] 10
      = some (.error .AnchorParameterIsRequired) :=
  ⟨(consign_genesis_and_anchor_preconditions richRuntime 0 sampleGenesis
      (some sampleAnchor) [] 10 (by decide)).1 sampleGenesis,
   (consign_genesis_and_anchor_preconditions richRuntime 0 sampleGenesis
      (some sampleAnchor) [] 10 (by decide)).2 targetTransition⟩

/-- C4 counterexample: the claim says a failed Index lookup during the
ancestor traversal makes `consign` fail with StorageError; on the sample
stash, consigning a transition whose parent (node 5) has no index entry
fails with IndexError, which is a different error. -/
theorem consign_index_miss_errors_counterexample :
    consign richRuntime 0 (.transition orphanTransition) (some sampleAnchor)
      [] 10 = some (.error .IndexError) ∧
    Error.IndexError ≠ Error.StorageError := by decide

/-- C4 amended: for every dequeued non-genesis ancestor identifier, if the
Index has no anchor id for it, `consign`'s traversal fails with
IndexError, and if the Index yields an anchor id whose Anchor is absent
from the Store, it fails with StorageError. -/
theorem consignLoop_ancestor_lookup_failures
    (r : Runtime) (genId fuel id : Nat) (q : List Nat)
    (ts : List (Anchor × GNode)) (es : List GNode)
    (h1 : id ≠ genId)
    (h2 : lookupKey r.indexer.map id = none ∨
          ∃ aid, lookupKey r.indexer.map id = some aid ∧
                 lookupKey r.storage.anchors aid = none) :
    consignLoop r genId (fuel + 1) (id :: q) ts es
      = some (.error (if lookupKey r.indexer.map id = none
                      then Error.IndexError else Error.StorageError)) := by
  rcases h2 with h2 | ⟨aid, ha, hb⟩
  · simp [consignLoop, h1, Index.anchorIdByTransitionId, h2]
  · simp [consignLoop, h1, Index.anchorIdByTransitionId, ha, Store.anchor,
          hb]

/-- Witness for the amended C4: node 5 is not in the sample index, so the
traversal fails there with IndexError. -/
theorem consignLoop_ancestor_lookup_failures_witness :
    consignLoop richRuntime 0 10 [5] [] []
      = some (.error (if lookupKey richRuntime.indexer.map 5 = none
                      then Error.IndexError else Error.StorageError)) :=
  consignLoop_ancestor_lookup_failures richRuntime 0 9 5 [] [] []
    (by decide) (Or.inl (by decide))

/-- C5: for every (anchor, transition) pair and every extension persisted
by a successful `merge` (with pairwise distinct node identifiers), the
stored node is the consignment node with its known seals revealed:
Declarative groups are stored unchanged, and in DiscreteFiniteField and
CustomData groups each item is replaced by its revealed form exactly when
its concealed seal matches an entry of known_seals, while items with no
matching entry remain concealed. -/
theorem merge_revelation
    (r r' : Runtime) (c : Consignment) (ks : List OutpointReveal)
    (states : List Store)
    (h : merge r c ks = (r', states, .ok ()))
    (hndT : (c.stateTransitions.map (fun p => p.2.nodeId)).Nodup)
    (hndE : (c.stateExtensions.map GNode.nodeId).Nodup) :
    (∀ p ∈ c.stateTransitions,
      lookupKey r'.storage.transitions p.2.nodeId
          = some (p.2.revealKnownSeals ks) ∧
      nodeRevealOk ks p.2 (p.2.revealKnownSeals ks) = true) ∧
    (∀ e ∈ c.stateExtensions,
      lookupKey r'.storage.extensions e.nodeId
          = some (e.revealKnownSeals ks) ∧
      nodeRevealOk ks e (e.revealKnownSeals ks) = true) := by
  have hT2 := congrArg (fun y => y.2.2) h
  simp only [merge] at hT2
  cases hTr : (mergeTransitions r.storage ks c.stateTransitions).2.2 with
  | error e =>
    rw [hTr] at hT2
    simp at hT2
  | ok u =>
    have hsf : r'.storage
        = (mergeExtensions (mergeTransitions r.storage ks
            c.stateTransitions).1 ks c.stateExtensions).1 := by
      have h1 := congrArg (fun y => y.1.storage) h
      simp only [merge] at h1
      rw [hTr] at h1
      simpa using h1.symm
    have hEr : (mergeExtensions (mergeTransitions r.storage ks
        c.stateTransitions).1 ks c.stateExtensions).2.2 = .ok () := by
      rw [hTr] at hT2
      simpa using hT2
    have hTr' : mergeTransitions r.storage ks c.stateTransitions
        = ((mergeTransitions r.storage ks c.stateTransitions).1,
           (mergeTransitions r.storage ks c.stateTransitions).2.1,
           .ok ()) := by
      cases u
      calc mergeTransitions r.storage ks c.stateTransitions
          = ((mergeTransitions r.storage ks c.stateTransitions).1,
             (mergeTransitions r.storage ks c.stateTransitions).2.1,
             (mergeTransitions r.storage ks c.stateTransitions).2.2) := rfl
        _ = _ := by rw [hTr]
    have hEx' : mergeExtensions (mergeTransitions r.storage ks
        c.stateTransitions).1 ks c.stateExtensions
        = ((mergeExtensions (mergeTransitions r.storage ks
             c.stateTransitions).1 ks c.stateExtensions).1,
           (mergeExtensions (mergeTransitions r.storage ks
             c.stateTransitions).1 ks c.stateExtensions).2.1,
           .ok ()) := by
      calc mergeExtensions (mergeTransitions r.storage ks
             c.stateTransitions).1 ks c.stateExtensions
          = ((mergeExtensions (mergeTransitions r.storage ks
               c.stateTransitions).1 ks c.stateExtensions).1,
             (mergeExtensions (mergeTransitions r.storage ks
               c.stateTransitions).1 ks c.stateExtensions).2.1,
             (mergeExtensions (mergeTransitions r.storage ks
               c.stateTransitions).1 ks c.stateExtensions).2.2) := rfl
        _ = _ := by rw [hEr]
    constructor
    · intro p hp
      have hstored := mergeTransitions_persists ks c.stateTransitions
        r.storage _ _ hTr' hndT p hp
      have hpres : lookupKey r'.storage.transitions p.2.nodeId
          = lookupKey (mergeTransitions r.storage ks
              c.stateTransitions).1.transitions p.2.nodeId := by
        rw [hsf, (mergeExtensions_fields ks c.stateExtensions _).2.1]
      rw [hpres, hstored]
      exact ⟨rfl, nodeRevealOk_self ks p.2⟩
    · intro e he
      have hstored := mergeExtensions_persists ks c.stateExtensions
        (mergeTransitions r.storage ks c.stateTransitions).1 _ _ hEx'
        hndE e he
      rw [hsf, hstored]
      exact ⟨rfl, nodeRevealOk_self ks e⟩

/-- Witness for C5: merging the fully concealed sample consignment into a
fresh stash with the seal pre-image of `sampleReveal` known stores the
target transition with exactly that item revealed. -/
theorem merge_revelation_witness :
    lookupKey ((merge freshRuntime roundtripConsignment
        [sampleReveal]).1).storage.transitions 1
      = some (targetTransition.concealAll.revealKnownSeals [sampleReveal]) ∧
    nodeRevealOk [sampleReveal] targetTransition.concealAll
      (targetTransition.concealAll.revealKnownSeals [sampleReveal])
      = true :=
  (merge_revelation freshRuntime
    ((merge freshRuntime roundtripConsignment [sampleReveal]).1)
    roundtripConsignment [sampleReveal]
    ((merge freshRuntime roundtripConsignment [sampleReveal]).2.1)
    (by decide) (by decide) (by decide)).1
    (sampleAnchor, targetTransition.concealAll) (by decide)

/-- C6: within any execution of `merge` (anchors content-consistent,
transition identifiers distinct, none of the consignment's transitions
already stored), every state — initial, intermediate after each
successful add, or final, including on early error return — that stores a
transition of the consignment also stores its committing anchor: the
anchor is persisted before its transition. -/
theorem merge_anchor_before_transition
    (r : Runtime) (c : Consignment) (ks : List OutpointReveal)
    (hanch : ∀ p ∈ c.stateTransitions, ∀ q ∈ c.stateTransitions,
      p.1.anchorId = q.1.anchorId → p.1 = q.1)
    (hnd : (c.stateTransitions.map (fun p => p.2.nodeId)).Nodup)
    (hinit : ∀ p ∈ c.stateTransitions,
      lookupKey r.storage.transitions p.2.nodeId = none) :
    ∀ s ∈ r.storage :: ((merge r c ks).2.1 ++ [(merge r c ks).1.storage]),
    ∀ p ∈ c.stateTransitions,
    lookupKey s.transitions p.2.nodeId = some (p.2.revealKnownSeals ks) →
    lookupKey s.anchors p.1.anchorId = some p.1 := by
  have hgood0 : ∀ p ∈ c.stateTransitions,
      lookupKey r.storage.transitions p.2.nodeId
          = some (p.2.revealKnownSeals ks) →
      lookupKey r.storage.anchors p.1.anchorId = some p.1 := by
    intro p hp hstored
    rw [hinit p hp] at hstored
    simp at hstored
  have hmain := mergeTransitions_anchor_first ks c.stateTransitions hanch
    hnd c.stateTransitions r.storage (fun p hp => hp) hnd hinit hgood0
  intro s hs p hp hstored
  rcases List.mem_cons.mp hs with rfl | hs
  · exact hgood0 p hp hstored
  · cases hTr : (mergeTransitions r.storage ks c.stateTransitions).2.2 with
    | error e =>
      have hm21 : (merge r c ks).2.1
          = (mergeTransitions r.storage ks c.stateTransitions).2.1 := by
        simp [merge, hTr]
      have hm1 : (merge r c ks).1.storage
          = (mergeTransitions r.storage ks c.stateTransitions).1 := by
        simp [merge, hTr]
      rw [hm21, hm1] at hs
      rcases List.mem_append.mp hs with hs | hs
      · exact hmain.1 s hs p hp hstored
      · rcases List.mem_singleton.mp hs with rfl
        exact hmain.2 p hp hstored
    | ok u =>
      have hm21 : (merge r c ks).2.1
          = (mergeTransitions r.storage ks c.stateTransitions).2.1 ++
            (mergeExtensions (mergeTransitions r.storage ks
              c.stateTransitions).1 ks c.stateExtensions).2.1 := by
        simp [merge, hTr]
      have hm1 : (merge r c ks).1.storage
          = (mergeExtensions (mergeTransitions r.storage ks
              c.stateTransitions).1 ks c.stateExtensions).1 := by
        simp [merge, hTr]
      rw [hm21, hm1] at hs
      rcases List.mem_append.mp hs with hs | hs
      · rcases List.mem_append.mp hs with hs | hs
        · exact hmain.1 s hs p hp hstored
        · obtain ⟨het, hea⟩ := mergeExtensions_states_fields ks
            c.stateExtensions _ s hs
          rw [het] at hstored
          rw [hea]
          exact hmain.2 p hp hstored
      · rcases List.mem_singleton.mp hs with rfl
        have hfields := mergeExtensions_fields ks c.stateExtensions
          (mergeTransitions r.storage ks c.stateTransitions).1
        rw [hfields.2.1] at hstored
        rw [hfields.2.2.1]
        exact hmain.2 p hp hstored

/-- Witness for C6: after merging the sample consignment into a fresh
stash, the final state stores the target transition, and by the theorem
its committing anchor is stored as well. -/
theorem merge_anchor_before_transition_witness :
    lookupKey ((merge freshRuntime roundtripConsignment
        []).1.storage).anchors sampleAnchor.anchorId = some sampleAnchor :=
  merge_anchor_before_transition freshRuntime roundtripConsignment []
    (by decide) (by decide) (by decide)
    ((merge freshRuntime roundtripConsignment []).1.storage)
    (by decide)
    (sampleAnchor, targetTransition.concealAll) (by decide) (by decide)

/-- C7: with the Store's add operations idempotent under re-insertion of
identical content (as the model's keyed insert is), calling `merge` twice
with the same Consignment (content-consistent anchors, distinct node
identifiers) and the same known_seals leaves the stash equal to the state
after the first successful call, and the second call also returns
success. -/
theorem merge_idempotent
    (r r1 : Runtime) (c : Consignment) (ks : List OutpointReveal)
    (states1 : List Store)
    (h1 : merge r c ks = (r1, states1, .ok ()))
    (hanch : ∀ p ∈ c.stateTransitions, ∀ q ∈ c.stateTransitions,
      p.1.anchorId = q.1.anchorId → p.1 = q.1)
    (hndT : (c.stateTransitions.map (fun p => p.2.nodeId)).Nodup)
    (hndE : (c.stateExtensions.map GNode.nodeId).Nodup) :
    (merge r1 c ks).1 = r1 ∧ (merge r1 c ks).2.2 = .ok () := by
  obtain ⟨hTr', hEx', hidx⟩ := merge_ok_inv h1
  have hrev := merge_revelation r r1 c ks states1 h1 hndT hndE
  have hEfields := mergeExtensions_fields ks c.stateExtensions
    (mergeTransitions r.storage ks c.stateTransitions).1
  have hTfields := mergeTransitions_fields ks c.stateTransitions r.storage
  have hr1s : r1.storage = (mergeExtensions (mergeTransitions r.storage ks
      c.stateTransitions).1 ks c.stateExtensions).1 :=
    (congrArg Prod.fst hEx').symm
  have hanchors : r1.storage.anchors
      = (mergeTransitions r.storage ks c.stateTransitions).1.anchors := by
    rw [hr1s]
    exact hEfields.2.2.1
  have hfail : r1.storage.failKeys = r.storage.failKeys := by
    rw [hr1s, hEfields.2.2.2, hTfields.2.2]
  have hanchorsPersist := mergeTransitions_anchors_persist ks
    c.stateTransitions r.storage _ _ hTr' hanch
  have hnfT := mergeTransitions_ok_notfail ks c.stateTransitions
    r.storage _ _ hTr'
  have hnfE := mergeExtensions_ok_notfail ks c.stateExtensions _ _ _ hEx'
  have hnoopT := mergeTransitions_noop ks c.stateTransitions r1.storage
    (fun p hp => ⟨(hrev.1 p hp).1,
      by rw [hanchors]; exact hanchorsPersist p hp,
      by rw [hfail]; exact (hnfT p hp).1,
      by rw [hfail]; exact (hnfT p hp).2⟩)
  have hnoopE := mergeExtensions_noop ks c.stateExtensions r1.storage
    (fun x hx => ⟨(hrev.2 x hx).1,
      by rw [hfail, ← hTfields.2.2]; exact hnfE x hx⟩)
  constructor
  · simp only [merge]
    rw [hnoopT.2]
    simp only
    rw [hnoopT.1, hnoopE.1]
  · simp only [merge]
    rw [hnoopT.2]
    simp only
    rw [hnoopT.1]
    exact hnoopE.2

/-- Witness for C7: merging the sample consignment into a fresh stash and
merging it again leaves the runtime unchanged and succeeds. -/
theorem merge_idempotent_witness :
    (merge ((merge freshRuntime roundtripConsignment []).1)
        roundtripConsignment []).1
      = (merge freshRuntime roundtripConsignment []).1 ∧
    (merge ((merge freshRuntime roundtripConsignment []).1)
        roundtripConsignment []).2.2 = .ok () :=
  merge_idempotent freshRuntime
    ((merge freshRuntime roundtripConsignment []).1) roundtripConsignment
    [] ((merge freshRuntime roundtripConsignment []).2.1) (by decide)
    (by decide) (by decide) (by decide)

/-- C8 counterexample: consigning the sample target succeeds with
consignment `roundtripConsignment`, but merging that consignment into a
fresh stash and consigning again with the same arguments fails with
StorageError instead of returning a structurally equal consignment. -/
theorem consign_merge_roundtrip_counterexample :
    consign richRuntime 0 (.transition targetTransition) (some sampleAnchor)
      [] 10 = some (.ok roundtripConsignment) ∧
    consign ((merge freshRuntime roundtripConsignment []).1) 0
      (.transition targetTransition) (some sampleAnchor) [] 10
      = some (.error .StorageError) := by decide

/-- C8 amended: the round trip into a fresh stash never reproduces the
consignment: `merge` persists only anchors, transitions and extensions,
never the Genesis, so any subsequent `consign` on the merged-into fresh
stash fails with StorageError at the genesis lookup. -/
theorem consign_after_merge_into_fresh_stash_fails
    (c : Consignment) (ks : List OutpointReveal) (cid : Nat)
    (node : NodeArg) (anchor : Option Anchor) (expose : List SealEndpoint)
    (fuel : Nat) :
    consign ((merge freshRuntime c ks).1) cid node anchor expose fuel
      = some (.error .StorageError) := by
  have hg : ((merge freshRuntime c ks).1).storage.genesisMap = [] :=
    merge_genesisMap freshRuntime c ks
  simp [consign, Store.genesis, hg, lookupKey_nil]

/-- C9: for every Stash whose stored parent-reference graph is acyclic —
witnessed by a rank function decreasing from every stored node to its
parents — and whose parent lists are bounded by B, `consign` terminates:
with fuel one more than the measure of the seeded queue, the FIFO
ancestor-traversal loop (which has no visited-set) dequeues only finitely
many identifiers and returns a Consignment or an error instead of running
out of fuel. -/
theorem consign_terminates
    (r : Runtime) (cid : Nat) (node : NodeArg) (anchor : Option Anchor)
    (expose : List SealEndpoint) (B : Nat) (rank : Nat → Nat)
    (hBT : ∀ id t, lookupKey r.storage.transitions id = some t →
      t.parentIds.length ≤ B)
    (hBE : ∀ id e, lookupKey r.storage.extensions id = some e →
      e.parentIds.length ≤ B)
    (hrkT : ∀ id t, lookupKey r.storage.transitions id = some t →
      ∀ p ∈ t.parentIds, rank p < rank id)
    (hrkE : ∀ id e, lookupKey r.storage.extensions id = some e →
      ∀ p ∈ e.parentIds, rank p < rank id) :
    (consign r cid node anchor expose
      (qMeasure B rank node.parentIds + 1)).isSome = true := by
  cases hg : lookupKey r.storage.genesisMap cid with
  | none => simp [consign, Store.genesis, hg]
  | some g =>
    have hgen : r.storage.genesis cid = .ok g := by
      simp [Store.genesis, hg]
    cases node with
    | genesis g' => simp [consign, hgen]
    | transition t =>
      cases anchor with
      | none => simp [consign, hgen]
      | some a =>
        have hloop := consignLoop_terminates r g.contractId B rank hBT hBE
          hrkT hrkE (qMeasure B rank t.parentIds + 1) t.parentIds
          [(a, t.concealExceptSet (expose.map SealEndpoint.conceal))] []
          (Nat.lt_succ_self _)
        simp only [consign, hgen]
        cases hl : consignLoop r g.contractId
            (qMeasure B rank (NodeArg.transition t).parentIds + 1)
            (NodeArg.transition t).parentIds
            [(a, t.concealExceptSet (expose.map SealEndpoint.conceal))] []
            with
        | none =>
          have hl' : consignLoop r g.contractId
              (qMeasure B rank t.parentIds + 1) t.parentIds
              [(a, t.concealExceptSet (expose.map SealEndpoint.conceal))]
              [] = none := hl
          rw [hl'] at hloop
          simp at hloop
        | some res =>
          cases res with
          | error e => rfl
          | ok p =>
            obtain ⟨ts, es⟩ := p
            rfl
    | extensionNode e =>
      have hloop := consignLoop_terminates r g.contractId B rank hBT hBE
        hrkT hrkE (qMeasure B rank e.parentIds + 1) e.parentIds []
        [e.concealExceptSet (expose.map SealEndpoint.conceal)]
        (Nat.lt_succ_self _)
      simp only [consign, hgen]
      cases hl : consignLoop r g.contractId
          (qMeasure B rank (NodeArg.extensionNode e).parentIds + 1)
          (NodeArg.extensionNode e).parentIds []
          [e.concealExceptSet (expose.map SealEndpoint.conceal)] with
      | none =>
        have hl' : consignLoop r g.contractId
            (qMeasure B rank e.parentIds + 1) e.parentIds []
            [e.concealExceptSet (expose.map SealEndpoint.conceal)]
            = none := hl
        rw [hl'] at hloop
        simp at hloop
      | some res =>
        cases res with
        | error e1 => rfl
        | ok p =>
          obtain ⟨ts, es⟩ := p
          rfl

/-- Witness for C9: the sample stash's parent graph is ranked by the node
identifier itself and has parent lists of length at most one, so
consigning the sample target terminates within the computed fuel. -/
theorem consign_terminates_witness :
    (consign richRuntime 0 (.transition targetTransition)
      (some sampleAnchor) []
      (qMeasure 1 (fun id => id)
        (NodeArg.transition targetTransition).parentIds + 1)).isSome
      = true :=
  consign_terminates richRuntime 0 (.transition targetTransition)
    (some sampleAnchor) [] 1 (fun id => id)
    (by
      intro id t h
      obtain ⟨h1, h2⟩ := lookupKey_singleton 2 ancTransition id t h
      subst h1
      decide)
    (by
      intro id e h
      have h' : (none : Option GNode) = some e := h
      exact Option.noConfusion h')
    (by
      intro id t h
      obtain ⟨h1, h2⟩ := lookupKey_singleton 2 ancTransition id t h
      subst h1
      subst h2
      decide)
    (by
      intro id e h
      have h' : (none : Option GNode) = some e := h
      exact Option.noConfusion h')

/-- C10: `merge` never reads from or writes to the Index: the runtime's
indexer is returned unchanged, the stored state and the result do not
depend on the indexer at all (so no transition-to-anchor mapping is ever
registered), and when `merge` fails its error is StorageError, never
IndexError. -/
theorem merge_frame_never_touches_index
    (r : Runtime) (c : Consignment) (ks : List OutpointReveal) :
    (merge r c ks).1.indexer = r.indexer ∧
    (∀ ix' : Index,
      (merge { storage := r.storage, indexer := ix' } c ks).1.storage
        = (merge r c ks).1.storage ∧
      (merge { storage := r.storage, indexer := ix' } c ks).2
        = (merge r c ks).2) ∧
    (∀ e : Error, (merge r c ks).2.2 = .error e → e = .StorageError) := by
  refine ⟨?_, fun ix' => ?_, fun e h => ?_⟩
  · simp only [merge]
    cases (mergeTransitions r.storage ks c.stateTransitions).2.2 <;> simp
  · simp only [merge]
    cases (mergeTransitions r.storage ks c.stateTransitions).2.2 <;> simp
  · simp only [merge] at h
    cases hT : (mergeTransitions r.storage ks c.stateTransitions).2.2 with
    | error e1 =>
      rw [hT] at h
      simp at h
      exact h ▸ mergeTransitions_error ks c.stateTransitions r.storage e1 hT
    | ok u =>
      rw [hT] at h
      simp at h
      exact mergeExtensions_error ks c.stateExtensions
        (mergeTransitions r.storage ks c.stateTransitions).1 e h

/-- Witness for C10: a merge that hits a modelled storage failure (anchor
identifier 100 is a failing key) errors, and by the theorem that error is
a StorageError; the indexer is unchanged. -/
theorem merge_frame_never_touches_index_witness :
    (merge { storage := { genesisMap := [], transitions := [],
                          extensions := [], anchors := [],
                          failKeys := [100] },
             indexer := ⟨[(7, 8)]⟩ }
       { genesis := sampleGenesis, endpoints := [],
         stateTransitions := [(sampleAnchor, targetTransition)],
         stateExtensions := [] } []).1.indexer = ⟨[(7, 8)]⟩ ∧
    Error.StorageError = Error.StorageError := by
  constructor
  · exact (merge_frame_never_touches_index
      { storage := { genesisMap := [], transitions := [],
                     extensions := [], anchors := [],
                     failKeys := [100] },
        indexer := ⟨[(7, 8)]⟩ }
      { genesis := sampleGenesis, endpoints := [],
        stateTransitions := [(sampleAnchor, targetTransition)],
        stateExtensions := [] } []).1
  · exact ((merge_frame_never_touches_index
      { storage := { genesisMap := [], transitions := [],
                     extensions := [], anchors := [],
                     failKeys := [100] },
        indexer := ⟨[(7, 8)]⟩ }
      { genesis := sampleGenesis, endpoints := [],
        stateTransitions := [(sampleAnchor, targetTransition)],
        stateExtensions := [] } []).2.2 Error.StorageError (by decide)).symm

end RgbNode
